import Mathlib

/-!
Verification of the PDFCompare diff-and-report pipeline (`app.py`, `llm.py`).

Python strings are modelled as `List Char`; line sequences as
`List (List Char)`.  Python's `difflib.SequenceMatcher` (standard library,
called by `compute_diff` and `compute_word_diffs`) is embedded from the
CPython source with `isjunk=None` (so the junk set is empty and the two
junk-extension loops of `find_longest_match` are vacuous) and with the
`autojunk` popularity heuristic as a boolean parameter (`compute_diff`
passes `autojunk=False`, `compute_word_diffs` uses the default `True`).
The `re.fullmatch` call used by the user-supplied `ignore_pattern` rule is
an external effectful engine; it is modelled as an oracle parameter of
type `List Char → List Char → Except Unit Bool` (`Except.error` embeds a
raised `re.error`/`TimeoutError`, exactly the exceptions the source
catches).  The two fixed header/footer regexes of `apply_ignore_rules` are
hand-compiled to decidable character-list matchers.
-/

set_option linter.unusedVariables false

-- ---------------------------------------------------------------------------
-- Python string primitives on List Char
-- ---------------------------------------------------------------------------

/-- Decimal rendering of a natural number, as a character list
(Python `str(n)` / f-string interpolation of a nonnegative int). -/
def natStr (n : Nat) : List Char := (Nat.repr n).data

/-- Auxiliary accumulator loop for `splitWs` (Python `str.split()` with no
argument): runs of whitespace separate the words, empty words never occur. -/
def splitWsAux : List Char → List Char → List (List Char)
  | acc, [] => if acc.isEmpty then [] else [acc.reverse]
  | acc, c :: cs =>
    if c.isWhitespace then
      if acc.isEmpty then splitWsAux [] cs else acc.reverse :: splitWsAux [] cs
    else splitWsAux (c :: acc) cs

/-- Python `line.split()`: split on runs of whitespace, dropping empties. -/
def splitWs (s : List Char) : List (List Char) := splitWsAux [] s

/-- Python `" ".join(ws)` on a list of words. -/
def joinSpaces (ws : List (List Char)) : List Char := List.intercalate [' '] ws

/-- Python `s.strip()`: remove leading and trailing whitespace. -/
def pyStrip (s : List Char) : List Char :=
  ((s.dropWhile Char.isWhitespace).reverse.dropWhile Char.isWhitespace).reverse

/-- Python slice `l[s:e]` (for the in-bounds, `s ≤ e` uses in `compute_diff`;
like Python, out-of-range bounds clamp). -/
def pySlice (l : List (List Char)) (s e : Nat) : List (List Char) :=
  (l.drop s).take (e - s)

/-- Decimal parse of a digit string (Python `int(s)` on the all-digit page
suffix produced by extraction; `int` raises on other input, which the
ingestion contract rules out, so the embedding is total). -/
def parseNatDigits (s : List Char) : Nat :=
  s.foldl (fun acc c => acc * 10 + (c.toNat - Char.toNat '0')) 0

-- ---------------------------------------------------------------------------
-- Page-marker helpers (app.py)
-- ---------------------------------------------------------------------------

/-- The sentinel sequence injected between pages (PAGE_MARKER_PREFIX in
app.py: the characters of "\x00PAGE:"). -/
def pageMarkerSentinel : List Char := "\x00PAGE:".data

/-- app.py `_is_page_marker`: the line starts with the sentinel. -/
def _is_page_marker (line : List Char) : Bool :=
  pageMarkerSentinel.isPrefixOf line

/-- app.py `_page_number_from_marker`: integer page number after the
sentinel. -/
def _page_number_from_marker (line : List Char) : Nat :=
  parseNatDigits (line.drop pageMarkerSentinel.length)

/-- Loop body of `_build_page_index`: one forward pass carrying the
current page (initially 1), updated at each marker before being recorded. -/
def buildPageIndexGo (cur : Nat) : List (List Char) → List Nat
  | [] => []
  | l :: ls =>
    let cur2 := if _is_page_marker l then _page_number_from_marker l else cur
    cur2 :: buildPageIndexGo cur2 ls

/-- app.py `_build_page_index`: maps every line index to its page number. -/
def _build_page_index (lines : List (List Char)) : List Nat :=
  buildPageIndexGo 1 lines

-- ---------------------------------------------------------------------------
-- Ignore rules (app.py apply_ignore_rules)
-- ---------------------------------------------------------------------------

/-- The ignore-options record handed to `apply_ignore_rules`.  Python uses a
dict with `.get` defaults; an absent key behaves as `false` / the empty
string, so the structure carries the defaulted values. -/
structure IgnoreOptions where
  ignore_whitespace : Bool
  ignore_case : Bool
  ignore_pattern : List Char
  ignore_headers_footers : Bool
deriving DecidableEq

/-- Padding characters of the bare-page-number regex character class
`[-–—\s]` in app.py. -/
def hfPadChar (c : Char) : Bool :=
  (c == '-') || (c == '–') || (c == '—') || c.isWhitespace

/-- Hand-compiled `re.fullmatch(r'[-–—\s]*\d+[-–—\s]*', stripped)`:
optional dash/space padding, one or more digits, optional padding.  The
character classes are disjoint, so the greedy functional scan is exactly
the regex fullmatch. -/
def hfBareNumber (s : List Char) : Bool :=
  let t := s.dropWhile hfPadChar
  (!(t.takeWhile Char.isDigit).isEmpty) && (t.dropWhile Char.isDigit).all hfPadChar

/-- Consume the literal `pat` (already lowercase) case-insensitively from
the front of `s`; `none` when it does not match. -/
def dropCaseless : List Char → List Char → Option (List Char)
  | [], s => some s
  | _ :: _, [] => none
  | p :: ps, c :: cs => if c.toLower == p then dropCaseless ps cs else none

/-- Consume a nonempty maximal run of characters satisfying `p` (regex
`X+` for a character class `X`); `none` when the first character fails. -/
def dropRun (p : Char → Bool) : List Char → Option (List Char)
  | [] => none
  | c :: cs => if p c then some (cs.dropWhile p) else none

/-- Hand-compiled `re.fullmatch(r'page\s+\d+(\s+of\s+\d+)?', stripped,
re.IGNORECASE)`.  All adjacent pieces use disjoint character classes
(letters / whitespace / digits), so the deterministic scan equals the
regex fullmatch, and trailing extra text fails the match. -/
def hfPageLine (s : List Char) : Bool :=
  match dropCaseless "page".data s with
  | none => false
  | some r1 =>
    match dropRun Char.isWhitespace r1 with
    | none => false
    | some r2 =>
      match dropRun Char.isDigit r2 with
      | none => false
      | some r3 =>
        if r3.isEmpty then true
        else
          match dropRun Char.isWhitespace r3 with
          | none => false
          | some r4 =>
            match dropCaseless "of".data r4 with
            | none => false
            | some r5 =>
              match dropRun Char.isWhitespace r5 with
              | none => false
              | some r6 =>
                match dropRun Char.isDigit r6 with
                | none => false
                | some r7 => r7.isEmpty

/-- The header/footer test of `apply_ignore_rules`: strip the (already
whitespace/case-transformed) line, then try the two fixed patterns. -/
def is_header_footer (line : List Char) : Bool :=
  hfBareNumber (pyStrip line) || hfPageLine (pyStrip line)

/-- The per-line transform stage of `apply_ignore_rules`: whitespace
collapse when `ignore_whitespace`, then lowercasing when `ignore_case`. -/
def transformLine (opts : IgnoreOptions) (line : List Char) : List Char :=
  let l1 := if opts.ignore_whitespace then joinSpaces (splitWs line) else line
  if opts.ignore_case then l1.map Char.toLower else l1

/-- The pattern-rule decision of `apply_ignore_rules` for one (already
transformed) line: `True` exactly when the rule drops the line.  An empty
(falsy) pattern disables the rule, a pattern longer than 500 characters is
rejected, and a raised engine error means no match — the `try/except`
of the source. -/
def patternDrops (re_fullmatch : List Char → List Char → Except Unit Bool)
    (opts : IgnoreOptions) (line : List Char) : Bool :=
  if opts.ignore_pattern.isEmpty then false
  else if 500 < opts.ignore_pattern.length then false
  else
    match re_fullmatch opts.ignore_pattern line with
    | Except.ok m => m
    | Except.error _ => false

/-- app.py `apply_ignore_rules`.  `re_fullmatch` is the external regex
engine (`re.fullmatch(pattern, line)` truthiness, with `Except.error`
standing for a raised `re.error`/`TimeoutError`, the exceptions the
source catches).  Page markers always pass through; per non-marker line:
whitespace collapse, lowercasing, the pattern rule (skipped when the
pattern is empty/falsy, longer than 500 characters, or the engine
raises), then the header/footer rule. -/
def apply_ignore_rules (re_fullmatch : List Char → List Char → Except Unit Bool) :
    List (List Char) → IgnoreOptions → List (List Char)
  | [], _ => []
  | line :: rest, opts =>
    if _is_page_marker line then
      line :: apply_ignore_rules re_fullmatch rest opts
    else
      let l2 := transformLine opts line
      if patternDrops re_fullmatch opts l2 then apply_ignore_rules re_fullmatch rest opts
      else if opts.ignore_headers_footers && is_header_footer l2 then
        apply_ignore_rules re_fullmatch rest opts
      else l2 :: apply_ignore_rules re_fullmatch rest opts

-- ---------------------------------------------------------------------------
-- difflib.SequenceMatcher (CPython stdlib, isjunk=None), generic in the
-- element type.  `aj` is the constructor's `autojunk` flag.
-- ---------------------------------------------------------------------------

/-- `range(s, s + n)` as a list (the index lists driving the Python loops). -/
def idxList : Nat → Nat → List Nat
  | _, 0 => []
  | s, n + 1 => s :: idxList (s + 1) n

/-- Popularity test of `SequenceMatcher.__chain_b`: with `autojunk` on and
`len(b) >= 200`, elements occurring more than `len(b) // 100 + 1` times
are dropped from `b2j`.  With `isjunk=None` the junk set is empty. -/
def isPopular {α : Type} [DecidableEq α] (aj : Bool) (b : List α) (x : α) : Bool :=
  aj && decide (200 ≤ b.length)
    && decide (b.length / 100 + 1 < (b.filter (fun y => decide (y = x))).length)

/-- The `b2j[a[i]]` indices visited by the inner loop of
`find_longest_match`: ascending positions `j` of `x` in `b`, restricted to
the `blo ≤ j < bhi` window (the loop's `continue`/`break` guards), and
empty for popular elements removed from `b2j`. -/
def jsMatches {α : Type} [DecidableEq α] (aj : Bool) (b : List α) (blo bhi : Nat) (x : α) :
    List Nat :=
  if isPopular aj b x then []
  else (List.range b.length).filter (fun j => decide (blo ≤ j ∧ j < bhi ∧ b.get? j = some x))

/-- `j2len.get(j - 1, 0)`: the dict has no key `-1`, so `j = 0` reads 0. -/
def j2lenGet (f : Nat → Nat) (j : Nat) : Nat :=
  if j = 0 then 0 else f (j - 1)

/-- Inner loop of `find_longest_match` at outer index `i`: fold the best
triple `(besti, bestj, bestsize)` over the candidate `j`s, taking a new
best only on strictly larger run length `k = j2len.get(j-1, 0) + 1`. -/
def flmInner (i : Nat) (f : Nat → Nat) (best : Nat × Nat × Nat) (js : List Nat) :
    Nat × Nat × Nat :=
  js.foldl
    (fun best j =>
      let k := j2lenGet f j + 1
      if best.2.2 < k then (i + 1 - k, j + 1 - k, k) else best)
    best

/-- One outer iteration of `find_longest_match`: rebuild `newj2len` over
the candidate `j`s and update the best triple. -/
def flmStep {α : Type} [DecidableEq α] (aj : Bool) (b : List α) (blo bhi : Nat)
    (st : (Nat → Nat) × (Nat × Nat × Nat)) (i : Nat) (x : α) :
    (Nat → Nat) × (Nat × Nat × Nat) :=
  let js := jsMatches aj b blo bhi x
  let f2 : Nat → Nat := fun j => if js.contains j then j2lenGet st.1 j + 1 else 0
  (f2, flmInner i st.1 st.2 js)

/-- The main dynamic-programming loop of `find_longest_match` over
`i in range(alo, ahi)`, starting from `besti, bestj, bestsize = alo, blo, 0`
and an empty `j2len`. -/
def flmMain {α : Type} [DecidableEq α] (aj : Bool) (a b : List α) (alo ahi blo bhi : Nat) :
    Nat × Nat × Nat :=
  let init : (Nat → Nat) × (Nat × Nat × Nat) := (fun _ => 0, (alo, blo, 0))
  ((idxList alo (ahi - alo)).foldl
      (fun st i =>
        match a.get? i with
        | some x => flmStep aj b blo bhi st i x
        | none => st)
      init).2

/-- The first extension loop of `find_longest_match` (extend downwards over
equal elements; the `not isbjunk(...)` conjunct is vacuous with
`isjunk=None`).  `fuel` bounds the iteration count; callers pass `besti`,
which dominates the number of possible decrements. -/
def flmExtendLower {α : Type} [DecidableEq α] (a b : List α) (alo blo : Nat) :
    Nat → Nat × Nat × Nat → Nat × Nat × Nat
  | 0, best => best
  | fuel + 1, (i, j, k) =>
    if alo < i ∧ blo < j ∧ ((a.get? (i - 1)).isSome ∧ a.get? (i - 1) = b.get? (j - 1)) then
      flmExtendLower a b alo blo fuel (i - 1, j - 1, k + 1)
    else (i, j, k)

/-- The second extension loop of `find_longest_match` (extend upwards over
equal elements; the junk conjunct is again vacuous).  Callers pass
`ahi - (besti + bestsize)` as fuel. -/
def flmExtendUpper {α : Type} [DecidableEq α] (a b : List α) (ahi bhi : Nat) :
    Nat → Nat × Nat × Nat → Nat × Nat × Nat
  | 0, best => best
  | fuel + 1, (i, j, k) =>
    if i + k < ahi ∧ j + k < bhi ∧ ((a.get? (i + k)).isSome ∧ a.get? (i + k) = b.get? (j + k)) then
      flmExtendUpper a b ahi bhi fuel (i, j, k + 1)
    else (i, j, k)

/-- CPython `SequenceMatcher.find_longest_match(alo, ahi, blo, bhi)` with
`isjunk=None`: the DP loop, then the two non-junk extension loops (the
two junk-extension loops never fire since the junk set is empty). -/
def find_longest_match {α : Type} [DecidableEq α] (aj : Bool) (a b : List α)
    (alo ahi blo bhi : Nat) : Nat × Nat × Nat :=
  let m1 := flmMain aj a b alo ahi blo bhi
  let m2 := flmExtendLower a b alo blo m1.1 m1
  flmExtendUpper a b ahi bhi (ahi - (m2.1 + m2.2.2)) m2

/-- The recursive exploration of `get_matching_blocks`: find the longest
match of the window, recurse on what precedes and follows it.  The CPython
version explores with an explicit stack and then sorts; emitting
left-recursion blocks, the found block, then right-recursion blocks
produces the same list already in sorted order.  `fuel` bounds the
recursion depth (the window sizes shrink strictly, so
`a.length + b.length + 1` always suffices at the top call). -/
def matchingBlocksFuel {α : Type} [DecidableEq α] (aj : Bool) (a b : List α) :
    Nat → Nat → Nat → Nat → Nat → List (Nat × Nat × Nat)
  | 0, _, _, _, _ => []
  | fuel + 1, alo, ahi, blo, bhi =>
    let m := find_longest_match aj a b alo ahi blo bhi
    if m.2.2 = 0 then []
    else
      (if alo < m.1 ∧ blo < m.2.1 then matchingBlocksFuel aj a b fuel alo m.1 blo m.2.1 else [])
        ++ [m]
        ++ (if m.1 + m.2.2 < ahi ∧ m.2.1 + m.2.2 < bhi then
              matchingBlocksFuel aj a b fuel (m.1 + m.2.2) ahi (m.2.1 + m.2.2) bhi
            else [])

/-- The adjacent-block collapsing loop of `get_matching_blocks`
(`i1, j1, k1` is the pending block, merged with a following block that
starts exactly where it ends). -/
def collapseBlocks : Nat → Nat → Nat → List (Nat × Nat × Nat) → List (Nat × Nat × Nat)
  | i1, j1, k1, [] => if k1 ≠ 0 then [(i1, j1, k1)] else []
  | i1, j1, k1, (i2, j2, k2) :: rest =>
    if i1 + k1 = i2 ∧ j1 + k1 = j2 then collapseBlocks i1 j1 (k1 + k2) rest
    else (if k1 ≠ 0 then [(i1, j1, k1)] else []) ++ collapseBlocks i2 j2 k2 rest

/-- CPython `SequenceMatcher.get_matching_blocks`: explore, sort (implicit
in the in-order recursion), collapse adjacent blocks, and append the
`(len(a), len(b), 0)` terminator. -/
def get_matching_blocks {α : Type} [DecidableEq α] (aj : Bool) (a b : List α) :
    List (Nat × Nat × Nat) :=
  collapseBlocks 0 0 0
      (matchingBlocksFuel aj a b (a.length + b.length + 1) 0 a.length 0 b.length)
    ++ [(a.length, b.length, 0)]

/-- The four opcode tags of `difflib` (also reused as the span kinds of
`compute_word_diffs`, whose Python spans carry the same strings). -/
inductive DiffTag where
  | equal
  | insert
  | delete
  | replace
deriving DecidableEq, BEq

/-- One `(tag, i1, i2, j1, j2)` opcode of `SequenceMatcher.get_opcodes`. -/
structure OpCode where
  tag : DiffTag
  i1 : Nat
  i2 : Nat
  j1 : Nat
  j2 : Nat
deriving DecidableEq

/-- The loop of `get_opcodes`: walk the matching blocks from `(0, 0)`,
emitting a replace/delete/insert opcode for the gap before each block and
an equal opcode for the block itself when nonempty. -/
def opcodesFromBlocks : Nat → Nat → List (Nat × Nat × Nat) → List OpCode
  | _, _, [] => []
  | i, j, (ai, bj, k) :: rest =>
    (if i < ai ∧ j < bj then [⟨DiffTag.replace, i, ai, j, bj⟩]
     else if i < ai then [⟨DiffTag.delete, i, ai, j, bj⟩]
     else if j < bj then [⟨DiffTag.insert, i, ai, j, bj⟩]
     else [])
      ++ (if k ≠ 0 then [⟨DiffTag.equal, ai, ai + k, bj, bj + k⟩] else [])
      ++ opcodesFromBlocks (ai + k) (bj + k) rest

/-- CPython `SequenceMatcher.get_opcodes`. -/
def get_opcodes {α : Type} [DecidableEq α] (aj : Bool) (a b : List α) : List OpCode :=
  opcodesFromBlocks 0 0 (get_matching_blocks aj a b)

-- ---------------------------------------------------------------------------
-- compute_word_diffs and compute_diff (app.py)
-- ---------------------------------------------------------------------------

/-- One word-diff entry of `compute_word_diffs`: per aligned line pair, the
ordered left and right span lists; each span is a `[text, type]` pair. -/
structure WordDiffEntry where
  left_spans : List (List Char × DiffTag)
  right_spans : List (List Char × DiffTag)
deriving DecidableEq

/-- The span-emitting loop body of `compute_word_diffs` over one pair's
word opcodes (state: the left and right span lists built so far). -/
def wordSpanStep (lw rw : List (List Char)) :
    List (List Char × DiffTag) × List (List Char × DiffTag) → OpCode →
    List (List Char × DiffTag) × List (List Char × DiffTag) :=
  fun sp op =>
    match op.tag with
    | DiffTag.equal =>
      let t := joinSpaces (pySlice lw op.i1 op.i2)
      (sp.1 ++ [(t, DiffTag.equal)], sp.2 ++ [(t, DiffTag.equal)])
    | DiffTag.delete =>
      (sp.1 ++ [(joinSpaces (pySlice lw op.i1 op.i2), DiffTag.delete)], sp.2)
    | DiffTag.insert =>
      (sp.1, sp.2 ++ [(joinSpaces (pySlice rw op.j1 op.j2), DiffTag.insert)])
    | DiffTag.replace =>
      (sp.1 ++ [(joinSpaces (pySlice lw op.i1 op.i2), DiffTag.delete)],
        sp.2 ++ [(joinSpaces (pySlice rw op.j1 op.j2), DiffTag.insert)])

/-- app.py `compute_word_diffs`: pair the lines positionally (padding the
shorter side with the empty line), split each pair into words, align the
words with `SequenceMatcher(None, left_words, right_words)` (default
`autojunk=True`), and map the opcodes to spans. -/
def compute_word_diffs (left_lines right_lines : List (List Char)) : List WordDiffEntry :=
  (List.range (max left_lines.length right_lines.length)).map
    (fun i =>
      let left := left_lines.getD i []
      let right := right_lines.getD i []
      let lw := splitWs left
      let rw := splitWs right
      let sp := (get_opcodes true lw rw).foldl (wordSpanStep lw rw) ([], [])
      ⟨sp.1, sp.2⟩)

/-- The aggregate counts dict of `compute_diff`. -/
structure Stats where
  equal : Nat
  insert : Nat
  delete : Nat
  replace : Nat
deriving DecidableEq

/-- One diff-block dict of `compute_diff`.  `word_diffs` is present
(`some`) exactly for replace blocks. -/
structure DiffBlock where
  tag : DiffTag
  left_start : Nat
  left_end : Nat
  right_start : Nat
  right_end : Nat
  left_lines : List (List Char)
  right_lines : List (List Char)
  left_page : Option Nat
  right_page : Option Nat
  word_diffs : Option (List WordDiffEntry)
deriving DecidableEq

/-- app.py `compute_diff`: `content_a = [(i, l) for i, l in enumerate(lines_a)
if not _is_page_marker(l)]`. -/
def content_entries (lines : List (List Char)) : List (Nat × List Char) :=
  (List.enum lines).filter (fun p => !(_is_page_marker p.2))

/-- The content-only (marker-stripped) text of a line sequence
(`text_a = [l for _, l in content_a]`). -/
def content_lines (lines : List (List Char)) : List (List Char) :=
  lines.filter (fun l => !(_is_page_marker l))

/-- The page number `compute_diff` attributes to content index `k` of a
sequence: `page_index[content[k][0]]` (the page in effect at the original
position of the `k`-th surviving line).  Only consulted for `k` in range,
so the lookup defaults are never reached there. -/
def page_at_content (lines : List (List Char)) (k : Nat) : Nat :=
  (_build_page_index lines).getD ((content_entries lines).getD k (0, [])).1 1

/-- Block construction of the `compute_diff` loop for one opcode: ranges,
sliced line texts, page attribution (a side yields `none` only when its
start index falls outside the content list), and word diffs for replace
opcodes. -/
def mk_diff_block (lines_a lines_b : List (List Char)) (op : OpCode) : DiffBlock :=
  let text_a := content_lines lines_a
  let text_b := content_lines lines_b
  { tag := op.tag
    left_start := op.i1
    left_end := op.i2
    right_start := op.j1
    right_end := op.j2
    left_lines := pySlice text_a op.i1 op.i2
    right_lines := pySlice text_b op.j1 op.j2
    left_page :=
      if op.i1 < (content_entries lines_a).length then some (page_at_content lines_a op.i1)
      else none
    right_page :=
      if op.j1 < (content_entries lines_b).length then some (page_at_content lines_b op.j1)
      else none
    word_diffs :=
      if op.tag = DiffTag.replace then
        some (compute_word_diffs (pySlice text_a op.i1 op.i2) (pySlice text_b op.j1 op.j2))
      else none }

/-- The statistics accumulation of the `compute_diff` loop. -/
def statStep (s : Stats) (op : OpCode) : Stats :=
  match op.tag with
  | DiffTag.equal => { s with equal := s.equal + (op.i2 - op.i1) }
  | DiffTag.insert => { s with insert := s.insert + (op.j2 - op.j1) }
  | DiffTag.delete => { s with delete := s.delete + (op.i2 - op.i1) }
  | DiffTag.replace => { s with replace := s.replace + max (op.i2 - op.i1) (op.j2 - op.j1) }

/-- The opcode list `compute_diff` obtains from
`SequenceMatcher(None, text_a, text_b, autojunk=False)` on the
content-only texts. -/
def diff_opcodes (lines_a lines_b : List (List Char)) : List OpCode :=
  get_opcodes false (content_lines lines_a) (content_lines lines_b)

/-- app.py `compute_diff`: strip markers (keeping original indices for page
lookup), run `SequenceMatcher(None, text_a, text_b, autojunk=False)`, and
turn each opcode into a diff block while accumulating the stats. -/
def compute_diff (lines_a lines_b : List (List Char)) : List DiffBlock × Stats :=
  ((diff_opcodes lines_a lines_b).map (mk_diff_block lines_a lines_b),
    (diff_opcodes lines_a lines_b).foldl statStep ⟨0, 0, 0, 0⟩)

-- ---------------------------------------------------------------------------
-- generate_report (app.py)
-- ---------------------------------------------------------------------------

/-- The change percentage of `generate_report`:
`changed / total * 100` with `total = equal + delete + replace`, taken as
0 when the denominator is 0.  The source computes this in binary floating
point; the embedding uses exact rational arithmetic. -/
def change_pct (stats : Stats) : ℚ :=
  let total := stats.equal + stats.delete + stats.replace
  let changed := stats.insert + stats.delete + stats.replace
  if total = 0 then 0 else (changed : ℚ) / (total : ℚ) * 100

/-- Fixed-point one-decimal rendering used for the
`| Change percentage | {pct:.1f}% |` table row (the source's float `:.1f`
formatting, modelled with round-half-up on the exact rational). -/
def fmt1f (q : ℚ) : List Char :=
  let n : Int := round (q * 10)
  (toString (n / 10)).data ++ ".".data ++ (toString (n % 10)).data

/-- The fixed High-severity sentence of `generate_report`. -/
def severityHighText : List Char :=
  ("**High** — The documents differ substantially. This likely represents a major revision affecting the overall meaning and structure of the document.").data

/-- The fixed Medium-severity sentence of `generate_report`. -/
def severityMediumText : List Char :=
  ("**Medium** — Notable differences exist. Specific sections have been altered which may affect interpretation of those sections.").data

/-- The fixed Low-severity sentence of `generate_report`. -/
def severityLowText : List Char :=
  ("**Low** — Minor differences detected. The documents are largely the same with small edits.").data

/-- The severity sentence selected by `generate_report` for a given change
percentage (thresholds: over 30 High, over 10 Medium, else Low). -/
def severityText (pct : ℚ) : List Char :=
  if 30 < pct then severityHighText
  else if 10 < pct then severityMediumText
  else severityLowText

/-- The `**Overall severity:** …` report line for a given stats record. -/
def severityLine (stats : Stats) : List Char :=
  "**Overall severity:** ".data ++ severityText (change_pct stats)

/-- app.py `_page_label` for the right page: `f" (page {pg})" if pg else ""`
(both a missing page and page 0 are falsy). -/
def page_label_right (b : DiffBlock) : List Char :=
  match b.right_page with
  | none => []
  | some p => if p = 0 then [] else " (page ".data ++ natStr p ++ ")".data

/-- app.py `_page_label` for the left page. -/
def page_label_left (b : DiffBlock) : List Char :=
  match b.left_page with
  | none => []
  | some p => if p = 0 then [] else " (page ".data ++ natStr p ++ ")".data

/-- Preview truncation of `generate_report`: cap at `n` characters and
append an ellipsis when over. -/
def truncPreview (n : Nat) (s : List Char) : List Char :=
  if n < s.length then s.take n ++ "…".data else s

/-- One numbered line of the New Content listing. -/
def additionItem (p : Nat × DiffBlock) : List Char :=
  let preview := truncPreview 200 (joinSpaces (p.2.right_lines.take 3))
  natStr p.1 ++ ". Near line ".data ++ natStr (p.2.right_start + 1) ++ page_label_right p.2
    ++ ": *\"".data ++ preview ++ "\"*".data

/-- One numbered line of the Removed Content listing. -/
def deletionItem (p : Nat × DiffBlock) : List Char :=
  let preview := truncPreview 200 (joinSpaces (p.2.left_lines.take 3))
  natStr p.1 ++ ". Near line ".data ++ natStr (p.2.left_start + 1) ++ page_label_left p.2
    ++ ": *\"".data ++ preview ++ "\"*".data

/-- The three lines of one Modified Content listing entry. -/
def modificationItem (p : Nat × DiffBlock) : List (List Char) :=
  let oldPreview := truncPreview 150 (joinSpaces (p.2.left_lines.take 2))
  let newPreview := truncPreview 150 (joinSpaces (p.2.right_lines.take 2))
  [natStr p.1 ++ ". Line ".data ++ natStr (p.2.left_start + 1) ++ page_label_left p.2
      ++ ":".data,
    "   - **Was:** *\"".data ++ oldPreview ++ "\"*".data,
    "   - **Now:** *\"".data ++ newPreview ++ "\"*".data]

/-- The trailing `(and N more…)` line when a category exceeds 10 blocks. -/
def moreLine (n : Nat) : List (List Char) :=
  if 10 < n then ["   *(and ".data ++ natStr (n - 10) ++ " more…)*".data] else []

/-- The New Content section of `generate_report` (empty when there are no
insert blocks). -/
def additionsSection (additions : List DiffBlock) : List (List Char) :=
  if additions.isEmpty then []
  else
    ["### New Content (".data ++ natStr additions.length ++ " section(s) added)".data,
      [],
      ("New content was introduced in Document B that does not appear in Document A. This may represent additional clauses, information, or context that changes the scope or meaning of the document.").data,
      []]
      ++ (List.enumFrom 1 (additions.take 10)).map additionItem
      ++ moreLine additions.length
      ++ [[]]

/-- The Removed Content section of `generate_report`. -/
def deletionsSection (deletions : List DiffBlock) : List (List Char) :=
  if deletions.isEmpty then []
  else
    ["### Removed Content (".data ++ natStr deletions.length ++ " section(s) deleted)".data,
      [],
      ("Content present in Document A has been removed in Document B. Removed text may eliminate obligations, rights, definitions, or qualifications that previously applied.").data,
      []]
      ++ (List.enumFrom 1 (deletions.take 10)).map deletionItem
      ++ moreLine deletions.length
      ++ [[]]

/-- The Modified Content section of `generate_report`. -/
def modificationsSection (modifications : List DiffBlock) : List (List Char) :=
  if modifications.isEmpty then []
  else
    ["### Modified Content (".data ++ natStr modifications.length ++ " section(s) changed)".data,
      [],
      ("Existing text was altered between the two versions. Modifications can change meaning, adjust figures, update references, or shift the tone of the document.").data,
      []]
      ++ ((List.enumFrom 1 (modifications.take 10)).map modificationItem).flatten
      ++ moreLine modifications.length
      ++ [[]]

/-- The Consequences bullets of `generate_report`. -/
def consequencesLines (hasDel hasAdd hasMod : Bool) (pct : ℚ) : List (List Char) :=
  (if hasDel then
      [("- **Removed content** may eliminate previously established terms, conditions, or information. Reviewers should verify that no critical clauses were unintentionally dropped.").data]
    else [])
    ++ (if hasAdd then
      [("- **Added content** introduces new information or requirements. Stakeholders should review these additions for compliance and alignment with expectations.").data]
    else [])
    ++ (if hasMod then
      [("- **Modified sections** could alter the interpretation of existing provisions. A careful line-by-line review of changed sections is recommended to assess whether the intent has shifted.").data]
    else [])
    ++ (if 30 < pct then
      [("- Given the **high volume of changes**, a full re-review of Document B is advisable rather than relying on a delta review alone.").data]
    else [])

/-- app.py `generate_report`, as the list of Markdown lines later joined
with newlines.  `now` stands for the `datetime.now()` timestamp string,
the only impure input. -/
def generate_report_lines (diff_blocks : List DiffBlock) (stats : Stats)
    (name_a name_b now : List Char) : List (List Char) :=
  let changed := stats.insert + stats.delete + stats.replace
  let pct := change_pct stats
  let header : List (List Char) :=
    ["# PDF Comparison Report".data,
      [],
      "**Date:** ".data ++ now,
      [],
      "**Document A:** ".data ++ name_a,
      "**Document B:** ".data ++ name_b,
      [],
      "---".data,
      [],
      "## Summary Statistics".data,
      [],
      "| Metric | Count |".data,
      "|--------|-------|".data,
      "| Unchanged lines | ".data ++ natStr stats.equal ++ " |".data,
      "| Inserted lines | ".data ++ natStr stats.insert ++ " |".data,
      "| Deleted lines | ".data ++ natStr stats.delete ++ " |".data,
      "| Modified lines | ".data ++ natStr stats.replace ++ " |".data,
      "| **Total changed** | **".data ++ natStr changed ++ "** |".data,
      "| Change percentage | ".data ++ fmt1f pct ++ "% |".data,
      [],
      "---".data,
      [],
      "## Impact Analysis".data,
      []]
  if changed = 0 then
    header
      ++ [("The two documents are **identical** in textual content. No differences found.").data]
  else
    let additions := diff_blocks.filter (fun b => b.tag == DiffTag.insert)
    let deletions := diff_blocks.filter (fun b => b.tag == DiffTag.delete)
    let modifications := diff_blocks.filter (fun b => b.tag == DiffTag.replace)
    header
      ++ [severityLine stats, []]
      ++ additionsSection additions
      ++ deletionsSection deletions
      ++ modificationsSection modifications
      ++ ["---".data, []]
      ++ ["## Consequences".data, []]
      ++ consequencesLines (!deletions.isEmpty) (!additions.isEmpty) (!modifications.isEmpty) pct
      ++ [[], "---".data, "*Report generated by PDFCompare.*".data]

/-- app.py `generate_report`: the joined Markdown string. -/
def generate_report (diff_blocks : List DiffBlock) (stats : Stats)
    (name_a name_b now : List Char) : List Char :=
  List.intercalate ['\n'] (generate_report_lines diff_blocks stats name_a name_b now)

-- ---------------------------------------------------------------------------
-- generate_llm_report payload (llm.py)
-- ---------------------------------------------------------------------------

/-- llm.py `_build_user_prompt`: document names, change statistics, and the
unified diff in a fenced code block. -/
def _build_user_prompt (unified_diff : List Char) (stats : Stats)
    (name_a name_b : List Char) : List Char :=
  "## Documents\n".data
    ++ "- **Document A:** ".data ++ name_a ++ "\n".data
    ++ "- **Document B:** ".data ++ name_b ++ "\n\n".data
    ++ "## Change Statistics\n".data
    ++ "- Unchanged lines: ".data ++ natStr stats.equal ++ "\n".data
    ++ "- Inserted lines: ".data ++ natStr stats.insert ++ "\n".data
    ++ "- Deleted lines: ".data ++ natStr stats.delete ++ "\n".data
    ++ "- Modified lines: ".data ++ natStr stats.replace ++ "\n\n".data
    ++ "## Unified Diff\n".data ++ "```\n".data ++ unified_diff ++ "\n```\n".data

/-- The truncation marker appended by `generate_llm_report`. -/
def truncMarker : List Char := "\n\n[... diff truncated for length ...]\n".data

/-- The user-role payload `generate_llm_report` hands to the provider call:
the built user prompt, truncated to its first 80000 characters with the
marker appended whenever the whole prompt exceeds 80000 characters. -/
def generate_llm_report_user_prompt (unified_diff : List Char) (stats : Stats)
    (name_a name_b : List Char) : List Char :=
  let user_prompt := _build_user_prompt unified_diff stats name_a name_b
  if 80000 < user_prompt.length then user_prompt.take 80000 ++ truncMarker
  else user_prompt

-- ---------------------------------------------------------------------------
-- Specification predicates and proof-level definitions
-- ---------------------------------------------------------------------------

/-- Bounds of a `find_longest_match` result within its window: the match
starts no earlier than the window and ends no later. -/
def flmBounds (alo ahi blo bhi : Nat) (m : Nat × Nat × Nat) : Prop :=
  alo ≤ m.1 ∧ m.1 + m.2.2 ≤ ahi ∧ blo ≤ m.2.1 ∧ m.2.1 + m.2.2 ≤ bhi

/-- Invariant of the `j2len` map before processing outer index `i`: every
recorded run stays inside the `j` window and its length is bounded by the
distances to the window starts. -/
def j2lenInv (alo blo bhi i : Nat) (f : Nat → Nat) : Prop :=
  ∀ j, f j ≠ 0 → blo ≤ j ∧ j < bhi ∧ f j ≤ i - alo ∧ f j ≤ j + 1 - blo

/-- The matching blocks of a window chain forward: each block starts at or
after the running position, and the final position stays within the
window ends. -/
def chainBetween : Nat → Nat → List (Nat × Nat × Nat) → Nat → Nat → Prop
  | i0, j0, [], i1, j1 => i0 ≤ i1 ∧ j0 ≤ j1
  | i0, j0, (i, j, k) :: rest, i1, j1 => i0 ≤ i ∧ j0 ≤ j ∧ chainBetween (i + k) (j + k) rest i1 j1

/-- Gap-free, overlap-free tiling of `[i, ie) × [j, je)` by an opcode list:
each opcode starts exactly where the previous one ended on both sides, and
the last one ends exactly at `(ie, je)`. -/
def opsTile : Nat → Nat → List OpCode → Nat → Nat → Prop
  | i, j, [], ie, je => i = ie ∧ j = je
  | i, j, op :: rest, ie, je =>
    op.i1 = i ∧ op.j1 = j ∧ i ≤ op.i2 ∧ j ≤ op.j2 ∧ opsTile op.i2 op.j2 rest ie je

/-- Range shape of an opcode according to its tag: equal opcodes cover
equal-length nonempty ranges, inserts are left-empty, deletes right-empty,
replaces nonempty on both sides. -/
def opShape (op : OpCode) : Prop :=
  match op.tag with
  | DiffTag.equal => op.i1 < op.i2 ∧ op.i2 - op.i1 = op.j2 - op.j1
  | DiffTag.insert => op.i1 = op.i2 ∧ op.j1 < op.j2
  | DiffTag.delete => op.i1 < op.i2 ∧ op.j1 = op.j2
  | DiffTag.replace => op.i1 < op.i2 ∧ op.j1 < op.j2

/-- The positions `(i + d, j + d)` for `d < k` hold equal elements: the
defining property of a genuine matching run found by the matcher. -/
def matchRun {α : Type} [DecidableEq α] (a b : List α) (i j k : Nat) : Prop :=
  ∀ d, d < k → a.get? (i + d) = b.get? (j + d)

/-- Gap-free, overlap-free tiling of the left content range `[s, e)` by the
left ranges of a diff-block list. -/
def blocksTileLeft : Nat → List DiffBlock → Nat → Prop
  | s, [], e => s = e
  | s, b :: rest, e => b.left_start = s ∧ s ≤ b.left_end ∧ blocksTileLeft b.left_end rest e

/-- Gap-free, overlap-free tiling of the right content range `[s, e)` by
the right ranges of a diff-block list. -/
def blocksTileRight : Nat → List DiffBlock → Nat → Prop
  | s, [], e => s = e
  | s, b :: rest, e => b.right_start = s ∧ s ≤ b.right_end ∧ blocksTileRight b.right_end rest e

/-- Per-opcode contribution to `stats.equal + stats.delete + stats.replace`. -/
def opContribution (op : OpCode) : Nat :=
  match op.tag with
  | DiffTag.equal => op.i2 - op.i1
  | DiffTag.insert => 0
  | DiffTag.delete => op.i2 - op.i1
  | DiffTag.replace => max (op.i2 - op.i1) (op.j2 - op.j1)

/-- Total excess of the replace blocks: how much each one's
`max(left length, right length)` stats contribution exceeds its left
length. -/
def replaceExcess (bs : List DiffBlock) : Nat :=
  ((bs.filter (fun b => b.tag == DiffTag.replace)).map
      (fun b =>
        max (b.left_end - b.left_start) (b.right_end - b.right_start)
          - (b.left_end - b.left_start))).sum

/-- The left span list produced by the `compute_word_diffs` loop over an
opcode list (equal/delete/replace opcodes contribute; inserts do not). -/
def leftSpansOf (lw : List (List Char)) : List OpCode → List (List Char × DiffTag)
  | [] => []
  | op :: rest =>
    match op.tag with
    | DiffTag.equal => (joinSpaces (pySlice lw op.i1 op.i2), DiffTag.equal) :: leftSpansOf lw rest
    | DiffTag.delete => (joinSpaces (pySlice lw op.i1 op.i2), DiffTag.delete) :: leftSpansOf lw rest
    | DiffTag.insert => leftSpansOf lw rest
    | DiffTag.replace => (joinSpaces (pySlice lw op.i1 op.i2), DiffTag.delete) :: leftSpansOf lw rest

/-- The right span list produced by the `compute_word_diffs` loop over an
opcode list (equal/insert/replace opcodes contribute; deletes do not).
For an equal opcode the source pushes the text computed from the LEFT
words to both span lists, so this takes both word lists. -/
def rightSpansOf (lw rw : List (List Char)) : List OpCode → List (List Char × DiffTag)
  | [] => []
  | op :: rest =>
    match op.tag with
    | DiffTag.equal =>
      (joinSpaces (pySlice lw op.i1 op.i2), DiffTag.equal) :: rightSpansOf lw rw rest
    | DiffTag.delete => rightSpansOf lw rw rest
    | DiffTag.insert =>
      (joinSpaces (pySlice rw op.j1 op.j2), DiffTag.insert) :: rightSpansOf lw rw rest
    | DiffTag.replace =>
      (joinSpaces (pySlice rw op.j1 op.j2), DiffTag.insert) :: rightSpansOf lw rw rest

/-- A placeholder diff block (used only as the explicit default of indexed
lookups in concrete statements). -/
def emptyDiffBlock : DiffBlock :=
  ⟨DiffTag.equal, 0, 0, 0, 0, [], [], none, none, none⟩

/-- A placeholder word-diff entry (explicit default for indexed lookups). -/
def emptyWordDiffEntry : WordDiffEntry := ⟨[], []⟩

/-- The ignore-options record with every rule inactive (the dict defaults:
booleans false, empty pattern). -/
def inactiveIgnoreOptions : IgnoreOptions := ⟨false, false, [], false⟩

/-- The ignore-options record with only `ignore_headers_footers` active. -/
def hfOnlyIgnoreOptions : IgnoreOptions := ⟨false, false, [], true⟩

-- ---------------------------------------------------------------------------
-- Lemmas: ignore rules
-- ---------------------------------------------------------------------------

theorem transformLine_id (opts : IgnoreOptions) (h1 : opts.ignore_whitespace = false)
    (h2 : opts.ignore_case = false) (line : List Char) :
    transformLine opts line = line := by
  simp [transformLine, h1, h2]

theorem patternDrops_empty (re : List Char → List Char → Except Unit Bool)
    (opts : IgnoreOptions) (line : List Char) (h : opts.ignore_pattern = []) :
    patternDrops re opts line = false := by
  simp [patternDrops, h]

theorem patternDrops_skipped (re : List Char → List Char → Except Unit Bool)
    (opts : IgnoreOptions) (line : List Char)
    (h : 500 < opts.ignore_pattern.length ∨
      ∀ l, re opts.ignore_pattern l = Except.error ()) :
    patternDrops re opts line = false := by
  rcases h with h | h
  · have hne : ¬ opts.ignore_pattern.isEmpty := by
      cases hp : opts.ignore_pattern with
      | nil => rw [hp] at h; simp at h
      | cons c cs => simp
    simp [patternDrops, hne, h]
  · by_cases he : opts.ignore_pattern.isEmpty
    · simp [patternDrops, he]
    · simp [patternDrops, he, h line]

theorem apply_ignore_rules_hf_only (re : List Char → List Char → Except Unit Bool)
    (lines : List (List Char)) :
    apply_ignore_rules re lines hfOnlyIgnoreOptions
      = lines.filter (fun l => _is_page_marker l || !(is_header_footer l)) := by
  induction lines with
  | nil => rfl
  | cons l rest ih =>
    by_cases hm : _is_page_marker l
    · simp [apply_ignore_rules, hm, ih]
    · have ht : transformLine hfOnlyIgnoreOptions l = l := transformLine_id _ rfl rfl l
      have hp : patternDrops re hfOnlyIgnoreOptions l = false := patternDrops_empty _ _ _ rfl
      have hh : hfOnlyIgnoreOptions.ignore_headers_footers = true := rfl
      simp only [apply_ignore_rules, hm, Bool.false_eq_true, if_false]
      rw [ht, hp, ih]
      by_cases h2 : is_header_footer l
      · simp [hh, h2, hm]
      · simp [hh, h2, hm]

theorem apply_ignore_rules_clear_pattern (re : List Char → List Char → Except Unit Bool)
    (lines : List (List Char)) (opts : IgnoreOptions)
    (h : 500 < opts.ignore_pattern.length ∨
      ∀ l, re opts.ignore_pattern l = Except.error ()) :
    apply_ignore_rules re lines opts
      = apply_ignore_rules re lines
          ⟨opts.ignore_whitespace, opts.ignore_case, [], opts.ignore_headers_footers⟩ := by
  induction lines with
  | nil => rfl
  | cons l rest ih =>
    by_cases hm : _is_page_marker l
    · simp [apply_ignore_rules, hm, ih]
    · have ht : transformLine ⟨opts.ignore_whitespace, opts.ignore_case, [],
          opts.ignore_headers_footers⟩ l = transformLine opts l := by
        simp [transformLine]
      have h1 : patternDrops re opts (transformLine opts l) = false :=
        patternDrops_skipped re opts _ h
      have h2 : patternDrops re ⟨opts.ignore_whitespace, opts.ignore_case, [],
          opts.ignore_headers_footers⟩ (transformLine opts l) = false :=
        patternDrops_empty _ _ _ rfl
      simp only [apply_ignore_rules, hm, Bool.false_eq_true, if_false, ht, h1, h2, ih]

-- ---------------------------------------------------------------------------
-- Claim theorems: ignore rules
-- ---------------------------------------------------------------------------

/-- C6: for every input line sequence, every ignore-options record and every
regex engine, `apply_ignore_rules` preserves every page-boundary marker:
the subsequence of marker lines of the input appears in the output
unchanged and in the same relative order — no rule removes or alters a
marker. -/
theorem c6_marker_invariance (re : List Char → List Char → Except Unit Bool)
    (lines : List (List Char)) (opts : IgnoreOptions) :
    List.Sublist (lines.filter (fun l => _is_page_marker l))
      (apply_ignore_rules re lines opts) := by
  induction lines with
  | nil => simp [apply_ignore_rules]
  | cons l rest ih =>
    by_cases hm : _is_page_marker l
    · simpa [apply_ignore_rules, hm] using ih.cons₂ l
    · have hf : (l :: rest).filter (fun l => _is_page_marker l)
          = rest.filter (fun l => _is_page_marker l) := by simp [hm]
      rw [hf]
      simp only [apply_ignore_rules, hm, Bool.false_eq_true, if_false]
      by_cases h1 : patternDrops re opts (transformLine opts l)
      · simpa [h1] using ih
      · by_cases h2 : opts.ignore_headers_footers && is_header_footer (transformLine opts l)
        · simpa [h1, h2] using ih
        · simpa [h1, h2] using ih.cons (transformLine opts l)

/-- C10: with all four ignore options inactive (booleans false, pattern
empty — the Python dict defaults; an empty pattern string is falsy and
disables the pattern rule entirely, so it drops no line, not even empty
lines), `apply_ignore_rules` returns the input unchanged, for every input
and every regex engine. -/
theorem c10_inactive_options_identity (re : List Char → List Char → Except Unit Bool)
    (lines : List (List Char)) :
    apply_ignore_rules re lines inactiveIgnoreOptions = lines := by
  induction lines with
  | nil => rfl
  | cons l rest ih =>
    by_cases hm : _is_page_marker l
    · simp [apply_ignore_rules, hm, ih]
    · have ht : transformLine inactiveIgnoreOptions l = l := transformLine_id _ rfl rfl l
      have hp : patternDrops re inactiveIgnoreOptions l = false := patternDrops_empty _ _ _ rfl
      have hh : inactiveIgnoreOptions.ignore_headers_footers = false := rfl
      simp only [apply_ignore_rules, hm, Bool.false_eq_true, if_false]
      rw [ht, hp, ih]
      simp [hh]

/-- C7: with only `ignore_headers_footers` active, `apply_ignore_rules`
drops exactly the non-marker lines whose stripped form matches one of the
two fixed patterns (solely digits with optional dash/space padding, or
"page <int>" optionally followed by "of <int>" case-insensitively); in
particular "Page 3 of 10" is dropped while "Page 3 Summary" is retained
(trailing extra text disqualifies the full-line match). -/
theorem c7_headers_footers_exact (re : List Char → List Char → Except Unit Bool)
    (lines : List (List Char)) :
    apply_ignore_rules re lines hfOnlyIgnoreOptions
        = lines.filter (fun l => _is_page_marker l || !(is_header_footer l))
      ∧ apply_ignore_rules re ["Page 3 of 10".data] hfOnlyIgnoreOptions = []
      ∧ apply_ignore_rules re ["Page 3 Summary".data] hfOnlyIgnoreOptions
          = ["Page 3 Summary".data] := by
  refine ⟨apply_ignore_rules_hf_only re lines, ?_, ?_⟩
  · rw [apply_ignore_rules_hf_only]
    decide
  · rw [apply_ignore_rules_hf_only]
    decide

/-- C8: for every ignore-options record whose pattern is longer than 500
characters, or on which the regex engine raises (on every line), the
pattern rule never drops a line: `apply_ignore_rules` behaves exactly as
with the pattern rule disabled, while the whitespace, case and
header/footer rules still apply.  The embedding is a total function, so
no exception escapes to the caller. -/
theorem c8_pattern_fault_tolerant (re : List Char → List Char → Except Unit Bool)
    (lines : List (List Char)) (opts : IgnoreOptions)
    (h : 500 < opts.ignore_pattern.length ∨
      ∀ l, re opts.ignore_pattern l = Except.error ()) :
    apply_ignore_rules re lines opts
      = apply_ignore_rules re lines
          ⟨opts.ignore_whitespace, opts.ignore_case, [], opts.ignore_headers_footers⟩ :=
  apply_ignore_rules_clear_pattern re lines opts h

/-- Witness for C8: a 501-character pattern with an always-raising engine
on a concrete two-line input. -/
theorem c8_pattern_fault_tolerant_witness :
    500 < (List.replicate 501 'a').length ∧
      apply_ignore_rules (fun _ _ => Except.error ()) ["12 ".data, "a  b".data]
          ⟨true, false, List.replicate 501 'a', true⟩
        = apply_ignore_rules (fun _ _ => Except.error ()) ["12 ".data, "a  b".data]
          ⟨true, false, [], true⟩ :=
  ⟨by rw [List.length_replicate]; omega,
    c8_pattern_fault_tolerant (fun _ _ => Except.error ()) ["12 ".data, "a  b".data]
      ⟨true, false, List.replicate 501 'a', true⟩
      (Or.inl (by rw [List.length_replicate]; omega))⟩

-- ---------------------------------------------------------------------------
-- Lemmas: find_longest_match stays inside its window
-- ---------------------------------------------------------------------------

theorem jsMatches_mem {α : Type} [DecidableEq α] (aj : Bool) (b : List α)
    (blo bhi : Nat) (x : α) (j : Nat) (h : j ∈ jsMatches aj b blo bhi x) :
    blo ≤ j ∧ j < bhi := by
  unfold jsMatches at h
  split at h
  · simp at h
  · simp only [List.mem_filter] at h
    have h2 := of_decide_eq_true h.2
    exact ⟨h2.1, h2.2.1⟩

theorem j2lenInv_mono (alo blo bhi i : Nat) (f : Nat → Nat)
    (h : j2lenInv alo blo bhi i f) : j2lenInv alo blo bhi (i + 1) f := by
  intro j hj
  have h2 := h j hj
  exact ⟨h2.1, h2.2.1, by omega, h2.2.2.2⟩

theorem j2lenGet_bound (alo blo bhi i : Nat) (f : Nat → Nat)
    (hinv : j2lenInv alo blo bhi i f) (j : Nat) :
    j2lenGet f j ≤ i - alo ∧ j2lenGet f j ≤ j - blo := by
  unfold j2lenGet
  split
  · exact ⟨Nat.zero_le _, Nat.zero_le _⟩
  · rename_i hj0
    by_cases hf : f (j - 1) = 0
    · simp [hf]
    · have h2 := hinv (j - 1) hf
      exact ⟨h2.2.2.1, by omega⟩

theorem flmInner_bounds (alo ahi blo bhi i : Nat) (f : Nat → Nat)
    (hinv : j2lenInv alo blo bhi i f) (hia : alo ≤ i) (hib : i < ahi) :
    ∀ (js : List Nat) (best : Nat × Nat × Nat),
      (∀ j ∈ js, blo ≤ j ∧ j < bhi) → flmBounds alo ahi blo bhi best →
      flmBounds alo ahi blo bhi (flmInner i f best js)
  | [], best, _, hbest => hbest
  | j :: js, best, hjs, hbest => by
    have hstep : flmBounds alo ahi blo bhi
        (if best.2.2 < j2lenGet f j + 1 then (i + 1 - (j2lenGet f j + 1), j + 1 - (j2lenGet f j + 1), j2lenGet f j + 1)
         else best) := by
      split
      · obtain ⟨hjb, hjlt⟩ := hjs j (List.mem_cons_self _ _)
        obtain ⟨hv1, hv2⟩ := j2lenGet_bound alo blo bhi i f hinv j
        unfold flmBounds
        refine ⟨?_, ?_, ?_, ?_⟩ <;> simp only <;> omega
      · exact hbest
    exact flmInner_bounds alo ahi blo bhi i f hinv hia hib js _
      (fun j2 hj2 => hjs j2 (List.mem_cons_of_mem _ hj2)) hstep

theorem flmStep_inv {α : Type} [DecidableEq α] (aj : Bool) (b : List α)
    (alo ahi blo bhi i : Nat) (st : (Nat → Nat) × (Nat × Nat × Nat)) (x : α)
    (hinv : j2lenInv alo blo bhi i st.1) (hia : alo ≤ i) (hib : i < ahi)
    (hbest : flmBounds alo ahi blo bhi st.2) :
    j2lenInv alo blo bhi (i + 1) (flmStep aj b blo bhi st i x).1
      ∧ flmBounds alo ahi blo bhi (flmStep aj b blo bhi st i x).2 := by
  constructor
  · intro j hj
    simp only [flmStep] at hj
    by_cases hc : (jsMatches aj b blo bhi x).contains j
    · have hmem : j ∈ jsMatches aj b blo bhi x := List.mem_of_elem_eq_true hc
      obtain ⟨hjb, hjlt⟩ := jsMatches_mem aj b blo bhi x j hmem
      obtain ⟨hv1, hv2⟩ := j2lenGet_bound alo blo bhi i st.1 hinv j
      rw [if_pos hc] at hj
      simp only [flmStep, if_pos hc]
      exact ⟨hjb, hjlt, by omega, by omega⟩
    · rw [if_neg hc] at hj
      exact absurd rfl hj
  · exact flmInner_bounds alo ahi blo bhi i st.1 hinv hia hib _ st.2
      (fun j hj => jsMatches_mem aj b blo bhi x j hj) hbest

theorem foldl_idxList_inv {σ : Type} (step : σ → Nat → σ) (P : Nat → σ → Prop)
    (ahi : Nat) (hstep : ∀ s i, i < ahi → P i s → P (i + 1) (step s i)) :
    ∀ (n start : Nat) (s : σ), start + n ≤ ahi → P start s →
      P (start + n) ((idxList start n).foldl step s)
  | 0, start, s, _, hP => by simpa [idxList] using hP
  | n + 1, start, s, hle, hP => by
    have h1 : start < ahi := by omega
    have h2 := foldl_idxList_inv step P ahi hstep n (start + 1) (step s start)
      (by omega) (hstep s start h1 hP)
    have h3 : start + 1 + n = start + (n + 1) := by omega
    rw [h3] at h2
    simpa [idxList] using h2

theorem flmMain_bounds {α : Type} [DecidableEq α] (aj : Bool) (a b : List α)
    (alo ahi blo bhi : Nat) (h1 : alo ≤ ahi) (h2 : blo ≤ bhi) :
    flmBounds alo ahi blo bhi (flmMain aj a b alo ahi blo bhi) := by
  have key := foldl_idxList_inv
    (fun st i =>
      match a.get? i with
      | some x => flmStep aj b blo bhi st i x
      | none => st)
    (fun i st => alo ≤ i ∧ j2lenInv alo blo bhi i st.1 ∧ flmBounds alo ahi blo bhi st.2)
    ahi
    (by
      intro s i hi hP
      obtain ⟨hia, hinv, hbest⟩ := hP
      simp only
      cases hx : a.get? i with
      | none => exact ⟨by omega, j2lenInv_mono alo blo bhi i s.1 hinv, hbest⟩
      | some x =>
        obtain ⟨hi1, hi2⟩ := flmStep_inv aj b alo ahi blo bhi i s x hinv hia hi hbest
        exact ⟨by omega, hi1, hi2⟩)
    (ahi - alo) alo ((fun _ => 0, (alo, blo, 0)) : (Nat → Nat) × (Nat × Nat × Nat))
    (by omega)
    (by
      refine ⟨le_rfl, ?_, ?_⟩
      · intro j hj
        exact absurd rfl hj
      · exact ⟨le_rfl, by simpa using h1, le_rfl, by simpa using h2⟩)
  exact key.2.2

theorem flmExtendLower_bounds {α : Type} [DecidableEq α] (a b : List α)
    (alo blo ahi bhi : Nat) :
    ∀ (fuel : Nat) (best : Nat × Nat × Nat), flmBounds alo ahi blo bhi best →
      flmBounds alo ahi blo bhi (flmExtendLower a b alo blo fuel best)
  | 0, best, h => h
  | fuel + 1, (i, j, k), h => by
    unfold flmExtendLower
    split
    · rename_i hcond
      apply flmExtendLower_bounds a b alo blo ahi bhi fuel
      unfold flmBounds at h ⊢
      simp only at h ⊢
      omega
    · exact h

theorem flmExtendUpper_bounds {α : Type} [DecidableEq α] (a b : List α)
    (ahi bhi alo blo : Nat) :
    ∀ (fuel : Nat) (best : Nat × Nat × Nat), flmBounds alo ahi blo bhi best →
      flmBounds alo ahi blo bhi (flmExtendUpper a b ahi bhi fuel best)
  | 0, best, h => h
  | fuel + 1, (i, j, k), h => by
    unfold flmExtendUpper
    split
    · rename_i hcond
      apply flmExtendUpper_bounds a b ahi bhi alo blo fuel
      unfold flmBounds at h ⊢
      simp only at h ⊢
      omega
    · exact h

theorem find_longest_match_bounds {α : Type} [DecidableEq α] (aj : Bool)
    (a b : List α) (alo ahi blo bhi : Nat) (h1 : alo ≤ ahi) (h2 : blo ≤ bhi) :
    flmBounds alo ahi blo bhi (find_longest_match aj a b alo ahi blo bhi) := by
  unfold find_longest_match
  apply flmExtendUpper_bounds
  apply flmExtendLower_bounds
  exact flmMain_bounds aj a b alo ahi blo bhi h1 h2

-- ---------------------------------------------------------------------------
-- Lemmas: matching blocks chain forward through both sequences
-- ---------------------------------------------------------------------------

theorem chainBetween_mono : ∀ (L : List (Nat × Nat × Nat)) (i0 j0 i1 j1 i2 j2 i3 j3 : Nat),
    chainBetween i0 j0 L i1 j1 → i2 ≤ i0 → j2 ≤ j0 → i1 ≤ i3 → j1 ≤ j3 →
    chainBetween i2 j2 L i3 j3
  | [], _, _, _, _, _, _, _, _, h, h1, h2, h3, h4 =>
    ⟨le_trans h1 (le_trans h.1 h3), le_trans h2 (le_trans h.2 h4)⟩
  | (i, j, k) :: rest, _, _, _, _, _, _, _, _, h, h1, h2, h3, h4 =>
    ⟨le_trans h1 h.1, le_trans h2 h.2.1,
      chainBetween_mono rest _ _ _ _ _ _ _ _ h.2.2 le_rfl le_rfl h3 h4⟩

theorem chainBetween_append : ∀ (L1 L2 : List (Nat × Nat × Nat)) (i0 j0 m n i1 j1 : Nat),
    chainBetween i0 j0 L1 m n → chainBetween m n L2 i1 j1 →
    chainBetween i0 j0 (L1 ++ L2) i1 j1
  | [], L2, _, _, _, _, _, _, h1, h2 =>
    chainBetween_mono L2 _ _ _ _ _ _ _ _ h2 h1.1 h1.2 le_rfl le_rfl
  | (i, j, k) :: rest, L2, _, _, _, _, _, _, h1, h2 =>
    ⟨h1.1, h1.2.1, chainBetween_append rest L2 _ _ _ _ _ _ h1.2.2 h2⟩

theorem matchingBlocksFuel_chain {α : Type} [DecidableEq α] (aj : Bool) (a b : List α) :
    ∀ (fuel alo ahi blo bhi : Nat), alo ≤ ahi → blo ≤ bhi →
      chainBetween alo blo (matchingBlocksFuel aj a b fuel alo ahi blo bhi) ahi bhi
  | 0, alo, ahi, blo, bhi, h1, h2 => ⟨h1, h2⟩
  | fuel + 1, alo, ahi, blo, bhi, h1, h2 => by
    have hb := find_longest_match_bounds aj a b alo ahi blo bhi h1 h2
    rcases hflm : find_longest_match aj a b alo ahi blo bhi with ⟨mi, mj, mk⟩
    rw [hflm] at hb
    obtain ⟨hb1, hb2, hb3, hb4⟩ := hb
    simp only at hb2 hb3 hb4
    simp only [matchingBlocksFuel, hflm]
    split
    · exact ⟨h1, h2⟩
    · apply chainBetween_append _ _ alo blo (mi + mk) (mj + mk) ahi bhi
      · apply chainBetween_append _ [(mi, mj, mk)] alo blo mi mj (mi + mk) (mj + mk)
        · split
          · exact matchingBlocksFuel_chain aj a b fuel alo mi blo mj hb1 hb3
          · exact ⟨hb1, hb3⟩
        · exact ⟨le_rfl, le_rfl, le_rfl, le_rfl⟩
      · split
        · exact matchingBlocksFuel_chain aj a b fuel (mi + mk) ahi (mj + mk) bhi
            (by omega) (by omega)
        · exact ⟨hb2, hb4⟩

theorem collapseBlocks_chain : ∀ (L : List (Nat × Nat × Nat)) (i1 j1 k1 s t ahi bhi : Nat),
    chainBetween (i1 + k1) (j1 + k1) L ahi bhi → s ≤ i1 → t ≤ j1 →
    chainBetween s t (collapseBlocks i1 j1 k1 L) ahi bhi
  | [], i1, j1, k1, s, t, ahi, bhi, h, hs, ht => by
    obtain ⟨hh1, hh2⟩ := h
    unfold collapseBlocks
    split
    · exact ⟨hs, ht, hh1, hh2⟩
    · exact ⟨by omega, by omega⟩
  | (i2, j2, k2) :: rest, i1, j1, k1, s, t, ahi, bhi, h, hs, ht => by
    obtain ⟨hc1, hc2, hc3⟩ := h
    unfold collapseBlocks
    split
    · rename_i hmerge
      apply collapseBlocks_chain rest i1 j1 (k1 + k2) s t ahi bhi ?_ hs ht
      have e1 : i1 + (k1 + k2) = i2 + k2 := by omega
      have e2 : j1 + (k1 + k2) = j2 + k2 := by omega
      rw [e1, e2]
      exact hc3
    · split
      · refine ⟨hs, ht, ?_⟩
        exact collapseBlocks_chain rest i2 j2 k2 (i1 + k1) (j1 + k1) ahi bhi hc3 hc1 hc2
      · exact collapseBlocks_chain rest i2 j2 k2 s t ahi bhi hc3 (by omega) (by omega)

theorem get_matching_blocks_chain {α : Type} [DecidableEq α] (aj : Bool) (a b : List α) :
    chainBetween 0 0
      (collapseBlocks 0 0 0
        (matchingBlocksFuel aj a b (a.length + b.length + 1) 0 a.length 0 b.length))
      a.length b.length := by
  apply collapseBlocks_chain _ 0 0 0 0 0 _ _ ?_ le_rfl le_rfl
  simpa using matchingBlocksFuel_chain aj a b (a.length + b.length + 1) 0 a.length 0 b.length
    (Nat.zero_le _) (Nat.zero_le _)

-- ---------------------------------------------------------------------------
-- Lemmas: the opcode list tiles both sequences
-- ---------------------------------------------------------------------------

theorem opsTile_append : ∀ (L1 L2 : List OpCode) (i j m n e f : Nat),
    opsTile i j L1 m n → opsTile m n L2 e f → opsTile i j (L1 ++ L2) e f
  | [], L2, i, j, m, n, e, f, h1, h2 => by
    obtain ⟨hi, hj⟩ := h1
    subst hi
    subst hj
    exact h2
  | op :: rest, L2, i, j, m, n, e, f, h1, h2 =>
    ⟨h1.1, h1.2.1, h1.2.2.1, h1.2.2.2.1,
      opsTile_append rest L2 _ _ m n e f h1.2.2.2.2 h2⟩

theorem opsTile_le : ∀ (L : List OpCode) (i j e f : Nat),
    opsTile i j L e f → i ≤ e ∧ j ≤ f
  | [], i, j, e, f, h => ⟨le_of_eq h.1, le_of_eq h.2⟩
  | op :: rest, i, j, e, f, h => by
    obtain ⟨hi, hj, hle1, hle2, hrest⟩ := h
    have h2 := opsTile_le rest _ _ e f hrest
    omega

theorem preBlock_props (i j ai bj : Nat) (h1 : i ≤ ai) (h2 : j ≤ bj) :
    opsTile i j
        (if i < ai ∧ j < bj then [⟨DiffTag.replace, i, ai, j, bj⟩]
         else if i < ai then [⟨DiffTag.delete, i, ai, j, bj⟩]
         else if j < bj then [⟨DiffTag.insert, i, ai, j, bj⟩]
         else []) ai bj
      ∧ ∀ op ∈
        (if i < ai ∧ j < bj then [⟨DiffTag.replace, i, ai, j, bj⟩]
         else if i < ai then [⟨DiffTag.delete, i, ai, j, bj⟩]
         else if j < bj then [⟨DiffTag.insert, i, ai, j, bj⟩]
         else []), opShape op := by
  by_cases ha : i < ai <;> by_cases hb : j < bj
  · constructor
    · simp only [if_pos (And.intro ha hb)]
      exact ⟨rfl, rfl, h1, h2, rfl, rfl⟩
    · intro op hop
      simp only [if_pos (And.intro ha hb), List.mem_singleton] at hop
      subst hop
      exact ⟨ha, hb⟩
  · have hjb : j = bj := by omega
    have hcond : ¬ (i < ai ∧ j < bj) := by omega
    constructor
    · simp only [if_neg hcond, if_pos ha]
      exact ⟨rfl, rfl, h1, h2, rfl, rfl⟩
    · intro op hop
      simp only [if_neg hcond, if_pos ha, List.mem_singleton] at hop
      subst hop
      exact ⟨ha, hjb⟩
  · have hia : i = ai := by omega
    have hcond : ¬ (i < ai ∧ j < bj) := by omega
    constructor
    · simp only [if_neg hcond, if_neg ha, if_pos hb]
      exact ⟨rfl, rfl, h1, h2, rfl, rfl⟩
    · intro op hop
      simp only [if_neg hcond, if_neg ha, if_pos hb, List.mem_singleton] at hop
      subst hop
      exact ⟨hia, hb⟩
  · have hia : i = ai := by omega
    have hjb : j = bj := by omega
    have hcond : ¬ (i < ai ∧ j < bj) := by omega
    constructor
    · simp only [if_neg hcond, if_neg ha, if_neg hb]
      exact ⟨hia, hjb⟩
    · intro op hop
      simp only [if_neg hcond, if_neg ha, if_neg hb, List.not_mem_nil] at hop

theorem eqBlock_props (ai bj k : Nat) :
    opsTile ai bj (if k ≠ 0 then [⟨DiffTag.equal, ai, ai + k, bj, bj + k⟩] else [])
        (ai + k) (bj + k)
      ∧ ∀ op ∈ (if k ≠ 0 then [⟨DiffTag.equal, ai, ai + k, bj, bj + k⟩] else []),
        opShape op := by
  by_cases hk : k = 0
  · subst hk
    constructor
    · simp only [ne_eq, not_true_eq_false, if_false]
      exact ⟨by omega, by omega⟩
    · intro op hop
      simp at hop
  · constructor
    · simp only [ne_eq, hk, not_false_eq_true, if_true]
      exact ⟨rfl, rfl, show ai ≤ ai + k by omega, show bj ≤ bj + k by omega, rfl, rfl⟩
    · intro op hop
      simp only [ne_eq, hk, not_false_eq_true, if_true, List.mem_singleton] at hop
      subst hop
      exact ⟨show ai < ai + k by omega, show ai + k - ai = bj + k - bj by omega⟩

theorem opcodes_master : ∀ (L : List (Nat × Nat × Nat)) (i j la lb : Nat),
    chainBetween i j L la lb →
    opsTile i j (opcodesFromBlocks i j (L ++ [(la, lb, 0)])) la lb
      ∧ ∀ op ∈ opcodesFromBlocks i j (L ++ [(la, lb, 0)]), opShape op
  | [], i, j, la, lb, h => by
    obtain ⟨h1, h2⟩ := h
    obtain ⟨hpre1, hpre2⟩ := preBlock_props i j la lb h1 h2
    have hform : opcodesFromBlocks i j ([] ++ [(la, lb, 0)])
        = ((if i < la ∧ j < lb then [⟨DiffTag.replace, i, la, j, lb⟩]
            else if i < la then [⟨DiffTag.delete, i, la, j, lb⟩]
            else if j < lb then [⟨DiffTag.insert, i, la, j, lb⟩]
            else []) ++ []) ++ [] := rfl
    rw [hform, List.append_nil, List.append_nil]
    exact ⟨hpre1, hpre2⟩
  | (ai, bj, k) :: rest, i, j, la, lb, h => by
    obtain ⟨h1, h2, h3⟩ := h
    obtain ⟨hpre1, hpre2⟩ := preBlock_props i j ai bj h1 h2
    obtain ⟨heq1, heq2⟩ := eqBlock_props ai bj k
    obtain ⟨hrec1, hrec2⟩ := opcodes_master rest (ai + k) (bj + k) la lb h3
    have hform : opcodesFromBlocks i j (((ai, bj, k) :: rest) ++ [(la, lb, 0)])
        = ((if i < ai ∧ j < bj then [⟨DiffTag.replace, i, ai, j, bj⟩]
            else if i < ai then [⟨DiffTag.delete, i, ai, j, bj⟩]
            else if j < bj then [⟨DiffTag.insert, i, ai, j, bj⟩]
            else [])
          ++ (if k ≠ 0 then [⟨DiffTag.equal, ai, ai + k, bj, bj + k⟩] else []))
          ++ opcodesFromBlocks (ai + k) (bj + k) (rest ++ [(la, lb, 0)]) := rfl
    rw [hform]
    constructor
    · apply opsTile_append _ _ i j (ai + k) (bj + k) la lb ?_ hrec1
      exact opsTile_append _ _ i j ai bj (ai + k) (bj + k) hpre1 heq1
    · intro op hop
      simp only [List.mem_append] at hop
      rcases hop with (hop | hop) | hop
      · exact hpre2 op hop
      · exact heq2 op hop
      · exact hrec2 op hop

theorem get_opcodes_master {α : Type} [DecidableEq α] (aj : Bool) (a b : List α) :
    opsTile 0 0 (get_opcodes aj a b) a.length b.length
      ∧ ∀ op ∈ get_opcodes aj a b, opShape op := by
  unfold get_opcodes get_matching_blocks
  exact opcodes_master _ 0 0 a.length b.length (get_matching_blocks_chain aj a b)

-- ---------------------------------------------------------------------------
-- Lemmas: diff blocks tile the content and reconstruct it
-- ---------------------------------------------------------------------------

theorem blocksTile_of_opsTile (lines_a lines_b : List (List Char)) :
    ∀ (ops : List OpCode) (i j e f : Nat), opsTile i j ops e f →
      blocksTileLeft i (ops.map (mk_diff_block lines_a lines_b)) e
        ∧ blocksTileRight j (ops.map (mk_diff_block lines_a lines_b)) f
  | [], i, j, e, f, h => ⟨h.1, h.2⟩
  | op :: rest, i, j, e, f, h => by
    obtain ⟨hi, hj, hle1, hle2, hrest⟩ := h
    obtain ⟨ih1, ih2⟩ := blocksTile_of_opsTile lines_a lines_b rest op.i2 op.j2 e f hrest
    subst hi
    subst hj
    exact ⟨⟨rfl, hle1, ih1⟩, ⟨rfl, hle2, ih2⟩⟩

theorem drop_eq_take_append (L : List (List Char)) (s e : Nat) (h1 : s ≤ e) :
    L.drop s = (L.drop s).take (e - s) ++ L.drop e := by
  have h2 : L.drop e = (L.drop s).drop (e - s) := by
    rw [List.drop_drop]
    congr 1
    omega
  rw [h2, List.take_append_drop]

theorem tilesLeft_join : ∀ (bs : List DiffBlock) (L : List (List Char)) (s : Nat),
    blocksTileLeft s bs L.length →
    (∀ b ∈ bs, b.left_lines = pySlice L b.left_start b.left_end) →
    (bs.map (fun b => b.left_lines)).flatten = L.drop s
  | [], L, s, htile, _ => by
    have : s = L.length := htile
    rw [this, List.drop_length]
    rfl
  | b :: rest, L, s, htile, hsl => by
    obtain ⟨hstart, hle, hrest⟩ := htile
    have hb := hsl b (List.mem_cons_self _ _)
    have hrec := tilesLeft_join rest L b.left_end hrest
      (fun b2 hb2 => hsl b2 (List.mem_cons_of_mem _ hb2))
    show b.left_lines ++ (rest.map (fun b => b.left_lines)).flatten = L.drop s
    rw [hb, hrec, pySlice, hstart]
    exact (drop_eq_take_append L s b.left_end (hstart ▸ hle)).symm

theorem tilesRight_join : ∀ (bs : List DiffBlock) (L : List (List Char)) (s : Nat),
    blocksTileRight s bs L.length →
    (∀ b ∈ bs, b.right_lines = pySlice L b.right_start b.right_end) →
    (bs.map (fun b => b.right_lines)).flatten = L.drop s
  | [], L, s, htile, _ => by
    have : s = L.length := htile
    rw [this, List.drop_length]
    rfl
  | b :: rest, L, s, htile, hsl => by
    obtain ⟨hstart, hle, hrest⟩ := htile
    have hb := hsl b (List.mem_cons_self _ _)
    have hrec := tilesRight_join rest L b.right_end hrest
      (fun b2 hb2 => hsl b2 (List.mem_cons_of_mem _ hb2))
    show b.right_lines ++ (rest.map (fun b => b.right_lines)).flatten = L.drop s
    rw [hb, hrec, pySlice, hstart]
    exact (drop_eq_take_append L s b.right_end (hstart ▸ hle)).symm

-- ---------------------------------------------------------------------------
-- Claim theorem: C1
-- ---------------------------------------------------------------------------

theorem diff_opcodes_master (lines_a lines_b : List (List Char)) :
    opsTile 0 0 (diff_opcodes lines_a lines_b)
        (content_lines lines_a).length (content_lines lines_b).length
      ∧ ∀ op ∈ diff_opcodes lines_a lines_b, opShape op :=
  get_opcodes_master false (content_lines lines_a) (content_lines lines_b)

theorem compute_diff_blocks (lines_a lines_b : List (List Char)) :
    (compute_diff lines_a lines_b).1
      = (diff_opcodes lines_a lines_b).map (mk_diff_block lines_a lines_b) := rfl

theorem compute_diff_stats (lines_a lines_b : List (List Char)) :
    (compute_diff lines_a lines_b).2
      = (diff_opcodes lines_a lines_b).foldl statStep ⟨0, 0, 0, 0⟩ := rfl

-- ---------------------------------------------------------------------------
-- Claim theorem: C1
-- ---------------------------------------------------------------------------

/-- C1: for every pair of filtered input line sequences, the diff blocks of
`compute_diff`, taken in order, tile both content-only (marker-stripped)
sequences without gaps or overlaps — the left ranges exactly cover
`[0, len(content_a))` and the right ranges `[0, len(content_b))` — and
concatenating every block's `left_lines` in order reconstructs the
content-only left sequence (symmetrically for `right_lines`). -/
theorem c1_blocks_tile_and_reconstruct (lines_a lines_b : List (List Char)) :
    blocksTileLeft 0 (compute_diff lines_a lines_b).1 (content_lines lines_a).length
      ∧ blocksTileRight 0 (compute_diff lines_a lines_b).1 (content_lines lines_b).length
      ∧ ((compute_diff lines_a lines_b).1.map (fun b => b.left_lines)).flatten
          = content_lines lines_a
      ∧ ((compute_diff lines_a lines_b).1.map (fun b => b.right_lines)).flatten
          = content_lines lines_b := by
  have hmaster := diff_opcodes_master lines_a lines_b
  rw [compute_diff_blocks]
  generalize hG : diff_opcodes lines_a lines_b = ops at hmaster ⊢
  obtain ⟨htile, hshape⟩ := hmaster
  obtain ⟨ht1, ht2⟩ := blocksTile_of_opsTile lines_a lines_b _ 0 0 _ _ htile
  have hsl : ∀ b ∈ ops.map (mk_diff_block lines_a lines_b),
      b.left_lines = pySlice (content_lines lines_a) b.left_start b.left_end := by
    intro b hb2
    obtain ⟨op, _, hop⟩ := List.mem_map.1 hb2
    subst hop
    rfl
  have hsr : ∀ b ∈ ops.map (mk_diff_block lines_a lines_b),
      b.right_lines = pySlice (content_lines lines_b) b.right_start b.right_end := by
    intro b hb2
    obtain ⟨op, _, hop⟩ := List.mem_map.1 hb2
    subst hop
    rfl
  refine ⟨ht1, ht2, ?_, ?_⟩
  · have := tilesLeft_join _ (content_lines lines_a) 0 ht1 hsl
    simpa using this
  · have := tilesRight_join _ (content_lines lines_b) 0 ht2 hsr
    simpa using this

-- ---------------------------------------------------------------------------
-- Lemmas: stats accumulation
-- ---------------------------------------------------------------------------

theorem stats_foldl : ∀ (ops : List OpCode) (s0 : Stats),
    (ops.foldl statStep s0).equal + (ops.foldl statStep s0).delete
        + (ops.foldl statStep s0).replace
      = s0.equal + s0.delete + s0.replace + (ops.map opContribution).sum
  | [], s0 => by simp
  | op :: rest, s0 => by
    have ih := stats_foldl rest (statStep s0 op)
    show (rest.foldl statStep (statStep s0 op)).equal
        + (rest.foldl statStep (statStep s0 op)).delete
        + (rest.foldl statStep (statStep s0 op)).replace = _
    rw [ih]
    rcases op with ⟨tag, i1, i2, j1, j2⟩
    cases tag <;> simp [statStep, opContribution] <;> omega

theorem contribution_sum : ∀ (ops : List OpCode) (i j e f : Nat),
    opsTile i j ops e f → (∀ op ∈ ops, opShape op) →
    (ops.map opContribution).sum
      = (e - i) +
        ((ops.filter (fun op => decide (op.tag = DiffTag.replace))).map
          (fun op => max (op.i2 - op.i1) (op.j2 - op.j1) - (op.i2 - op.i1))).sum
  | [], i, j, e, f, htile, _ => by
    obtain ⟨h1, h2⟩ := htile
    subst h1
    simp
  | op :: rest, i, j, e, f, htile, hshape => by
    obtain ⟨hi1, hj1, hle1, hle2, hrest⟩ := htile
    have hible := opsTile_le rest op.i2 op.j2 e f hrest
    have ih := contribution_sum rest op.i2 op.j2 e f hrest
      (fun o ho => hshape o (List.mem_cons_of_mem _ ho))
    have hsh := hshape op (List.mem_cons_self _ _)
    have hmx : op.i2 - op.i1 ≤ max (op.i2 - op.i1) (op.j2 - op.j1) := le_max_left _ _
    simp only [List.map_cons, List.sum_cons, List.filter_cons]
    rw [ih]
    rcases hop : op.tag with _ | _ | _ | _ <;>
      simp only [opShape, hop] at hsh <;>
      simp [opContribution, hop] <;>
      omega

theorem replaceExcess_map (lines_a lines_b : List (List Char)) :
    ∀ (ops : List OpCode),
    replaceExcess (ops.map (mk_diff_block lines_a lines_b))
      = ((ops.filter (fun op => decide (op.tag = DiffTag.replace))).map
          (fun op => max (op.i2 - op.i1) (op.j2 - op.j1) - (op.i2 - op.i1))).sum
  | [] => rfl
  | op :: rest => by
    have ih := replaceExcess_map lines_a lines_b rest
    simp only [replaceExcess, List.map_cons, List.filter_cons] at ih ⊢
    have htag : (mk_diff_block lines_a lines_b op).tag = op.tag := rfl
    rw [htag]
    rcases hop : op.tag with _ | _ | _ | _
    · rw [if_neg (by decide), if_neg (by decide)]
      exact ih
    · rw [if_neg (by decide), if_neg (by decide)]
      exact ih
    · rw [if_neg (by decide), if_neg (by decide)]
      exact ih
    · rw [if_pos (by decide), if_pos (by decide)]
      simp only [List.map_cons, List.sum_cons]
      rw [ih]
      rfl

-- ---------------------------------------------------------------------------
-- Claim theorems: C3 (corrected)
-- ---------------------------------------------------------------------------

/-- C3 counterexample: on `lines_a = ["x"]`, `lines_b = ["y", "z"]` the
single opcode is a replace of one left line by two right lines, so
`stats.replace = max(1, 2) = 2` and
`stats.equal + stats.delete + stats.replace = 2 ≠ 1 = len(content_a)`:
the claimed equality fails whenever some replace block's right range is
longer than its left range. -/
theorem c3_stats_consistency_cex :
    (compute_diff [['x']] [['y'], ['z']]).2.equal
          + (compute_diff [['x']] [['y'], ['z']]).2.delete
          + (compute_diff [['x']] [['y'], ['z']]).2.replace
        ≠ (content_lines [['x']]).length
      ∧ (compute_diff [['x']] [['y'], ['z']]).2 = ⟨0, 0, 0, 2⟩
      ∧ (content_lines [['x']]).length = 1 := by
  exact ⟨by decide, by decide, by decide⟩

/-- C3 (amended): `stats.equal + stats.delete + stats.replace` equals
`len(content_a)` plus the total excess of the replace blocks (for each
replace block, `max(left length, right length) − left length`); the
claimed equality holds exactly when every replace block's left range is at
least as long as its right range. -/
theorem c3_stats_sum_amended (lines_a lines_b : List (List Char)) :
    (compute_diff lines_a lines_b).2.equal + (compute_diff lines_a lines_b).2.delete
        + (compute_diff lines_a lines_b).2.replace
      = (content_lines lines_a).length
          + replaceExcess (compute_diff lines_a lines_b).1 := by
  have hmaster := diff_opcodes_master lines_a lines_b
  rw [compute_diff_blocks, compute_diff_stats]
  generalize hG : diff_opcodes lines_a lines_b = ops at hmaster ⊢
  obtain ⟨htile, hshape⟩ := hmaster
  rw [stats_foldl, replaceExcess_map lines_a lines_b ops,
      contribution_sum ops 0 0 _ _ htile hshape]
  simp

-- ---------------------------------------------------------------------------
-- Lemmas: content entries and page attribution
-- ---------------------------------------------------------------------------

theorem opsTile_mem_le : ∀ (ops : List OpCode) (i j e f : Nat), opsTile i j ops e f →
    ∀ op ∈ ops, op.i1 ≤ op.i2 ∧ op.i2 ≤ e ∧ op.j1 ≤ op.j2 ∧ op.j2 ≤ f
  | [], _, _, _, _, _, op, hop => absurd hop (List.not_mem_nil _)
  | o :: rest, i, j, e, f, h, op, hop => by
    obtain ⟨hi, hj, hl1, hl2, hrest⟩ := h
    have hle := opsTile_le rest o.i2 o.j2 e f hrest
    rcases List.mem_cons.1 hop with rfl | hop2
    · exact ⟨by omega, by omega, by omega, by omega⟩
    · exact opsTile_mem_le rest o.i2 o.j2 e f hrest op hop2

theorem enumFrom_filter_snd (f : List Char → Bool) :
    ∀ (l : List (List Char)) (n : Nat),
      ((List.enumFrom n l).filter (fun p => !(f p.2))).map Prod.snd
        = l.filter (fun x => !(f x))
  | [], n => rfl
  | x :: xs, n => by
    simp only [List.enumFrom, List.filter]
    by_cases hf : f x
    · simp [hf, enumFrom_filter_snd f xs (n + 1)]
    · simp [hf, enumFrom_filter_snd f xs (n + 1)]

theorem content_entries_snd (lines : List (List Char)) :
    (content_entries lines).map Prod.snd = content_lines lines :=
  enumFrom_filter_snd _is_page_marker lines 0

theorem content_entries_length (lines : List (List Char)) :
    (content_entries lines).length = (content_lines lines).length := by
  rw [← content_entries_snd, List.length_map]

-- ---------------------------------------------------------------------------
-- Claim theorems: C4 (corrected)
-- ---------------------------------------------------------------------------

/-- C4 counterexample: on `lines_a = ["A"]`, `lines_b = ["X", "A"]` the
first block is an insert whose left range is empty
(`left_start = left_end = 0`), yet `left_page` is `some 1`, not `None`:
the code tests `i1 < len(content_a)`, not emptiness of the range, so an
empty left range strictly inside the document gets the page of the line
at that position. -/
theorem c4_empty_range_page_cex :
    ((compute_diff [['A']] [['X'], ['A']]).1.getD 0 emptyDiffBlock).left_start
        = ((compute_diff [['A']] [['X'], ['A']]).1.getD 0 emptyDiffBlock).left_end
      ∧ ((compute_diff [['A']] [['X'], ['A']]).1.getD 0 emptyDiffBlock).tag
          = DiffTag.insert
      ∧ ((compute_diff [['A']] [['X'], ['A']]).1.getD 0 emptyDiffBlock).left_page
          = some 1 := by
  exact ⟨by decide, by decide, by decide⟩

/-- C4 (amended): a side's page is `None` exactly when the range's start
index falls at the end of that side's content list (`left_page = none ↔
left_start = len(content_a)`, and then the range is necessarily empty);
a range whose start lies strictly inside the content — even an empty
range — yields the page number in effect at the original position of the
surviving line at that start index.  Symmetrically for the right side. -/
theorem c4_pages_amended (lines_a lines_b : List (List Char)) (b : DiffBlock)
    (hb : b ∈ (compute_diff lines_a lines_b).1) :
    (b.left_page = none ↔ (content_lines lines_a).length ≤ b.left_start)
      ∧ (b.left_page = none → b.left_start = b.left_end)
      ∧ (b.left_start < (content_lines lines_a).length →
          b.left_page = some (page_at_content lines_a b.left_start))
      ∧ (b.right_page = none ↔ (content_lines lines_b).length ≤ b.right_start)
      ∧ (b.right_page = none → b.right_start = b.right_end)
      ∧ (b.right_start < (content_lines lines_b).length →
          b.right_page = some (page_at_content lines_b b.right_start)) := by
  have hmaster := diff_opcodes_master lines_a lines_b
  rw [compute_diff_blocks] at hb
  generalize hG : diff_opcodes lines_a lines_b = ops at hmaster hb
  obtain ⟨htile, hshape⟩ := hmaster
  obtain ⟨op, hop, rfl⟩ := List.mem_map.1 hb
  have hbounds := opsTile_mem_le ops 0 0 _ _ htile op hop
  have hlena := content_entries_length lines_a
  have hlenb := content_entries_length lines_b
  have hpagel : (mk_diff_block lines_a lines_b op).left_page
      = (if op.i1 < (content_entries lines_a).length
          then some (page_at_content lines_a op.i1) else none) := rfl
  have hpager : (mk_diff_block lines_a lines_b op).right_page
      = (if op.j1 < (content_entries lines_b).length
          then some (page_at_content lines_b op.j1) else none) := rfl
  have hls : (mk_diff_block lines_a lines_b op).left_start = op.i1 := rfl
  have hle : (mk_diff_block lines_a lines_b op).left_end = op.i2 := rfl
  have hrs : (mk_diff_block lines_a lines_b op).right_start = op.j1 := rfl
  have hre : (mk_diff_block lines_a lines_b op).right_end = op.j2 := rfl
  rw [hpagel, hpager, hls, hle, hrs, hre]
  by_cases hlt : op.i1 < (content_entries lines_a).length <;>
    by_cases hrt : op.j1 < (content_entries lines_b).length <;>
    simp [hlt, hrt] <;>
    omega

/-- Witness for the amended C4 on the concrete pair `["A"]`, `["A"]` (a
single equal block starting inside both contents). -/
theorem c4_pages_amended_witness :
    (((compute_diff [['A']] [['A']]).1.getD 0 emptyDiffBlock).left_page = none ↔ (content_lines [['A']]).length ≤ ((compute_diff [['A']] [['A']]).1.getD 0 emptyDiffBlock).left_start)
      ∧ (((compute_diff [['A']] [['A']]).1.getD 0 emptyDiffBlock).left_page = none → ((compute_diff [['A']] [['A']]).1.getD 0 emptyDiffBlock).left_start = ((compute_diff [['A']] [['A']]).1.getD 0 emptyDiffBlock).left_end)
      ∧ (((compute_diff [['A']] [['A']]).1.getD 0 emptyDiffBlock).left_start < (content_lines [['A']]).length → ((compute_diff [['A']] [['A']]).1.getD 0 emptyDiffBlock).left_page = some (page_at_content [['A']] ((compute_diff [['A']] [['A']]).1.getD 0 emptyDiffBlock).left_start))
      ∧ (((compute_diff [['A']] [['A']]).1.getD 0 emptyDiffBlock).right_page = none ↔ (content_lines [['A']]).length ≤ ((compute_diff [['A']] [['A']]).1.getD 0 emptyDiffBlock).right_start)
      ∧ (((compute_diff [['A']] [['A']]).1.getD 0 emptyDiffBlock).right_page = none → ((compute_diff [['A']] [['A']]).1.getD 0 emptyDiffBlock).right_start = ((compute_diff [['A']] [['A']]).1.getD 0 emptyDiffBlock).right_end)
      ∧ (((compute_diff [['A']] [['A']]).1.getD 0 emptyDiffBlock).right_start < (content_lines [['A']]).length → ((compute_diff [['A']] [['A']]).1.getD 0 emptyDiffBlock).right_page = some (page_at_content [['A']] ((compute_diff [['A']] [['A']]).1.getD 0 emptyDiffBlock).right_start)) :=
  c4_pages_amended [['A']] [['A']] ((compute_diff [['A']] [['A']]).1.getD 0 emptyDiffBlock) (by decide)

-- ---------------------------------------------------------------------------
-- Lemmas: word-diff span reconstruction
-- ---------------------------------------------------------------------------

theorem intercalate_singleton_word (sep w : List Char) :
    List.intercalate sep [w] = w := by
  simp [List.intercalate, List.intersperse]

theorem intercalate_cons2 (sep t w : List Char) (ts : List (List Char)) :
    List.intercalate sep (t :: w :: ts) = t ++ sep ++ List.intercalate sep (w :: ts) := by
  simp [List.intercalate, List.intersperse]

theorem intercalate_cons_of_ne_nil (sep t : List Char) :
    ∀ (ts : List (List Char)), ts ≠ [] →
      List.intercalate sep (t :: ts) = t ++ sep ++ List.intercalate sep ts
  | [], h => absurd rfl h
  | w :: ts, _ => intercalate_cons2 sep t w ts

theorem intercalate_ne_nil (sep : List Char) :
    ∀ (ws : List (List Char)), ws ≠ [] → (∀ w ∈ ws, w ≠ []) →
      List.intercalate sep ws ≠ []
  | [], h, _ => absurd rfl h
  | [w], _, hws => by
    rw [intercalate_singleton_word]
    exact hws w (List.mem_singleton.2 rfl)
  | w :: w2 :: ts, _, hws => by
    rw [intercalate_cons2]
    intro h
    obtain ⟨h1, _⟩ := List.append_eq_nil.1 h
    obtain ⟨h2, _⟩ := List.append_eq_nil.1 h1
    exact hws w (List.mem_cons_self _ _) h2

theorem intercalate_append_split (sep : List Char) :
    ∀ (W1 W2 : List (List Char)), W1 ≠ [] → W2 ≠ [] →
      List.intercalate sep (W1 ++ W2)
        = List.intercalate sep W1 ++ sep ++ List.intercalate sep W2
  | [], _, h, _ => absurd rfl h
  | [w], W2, _, h2 => by
    rw [List.singleton_append, intercalate_cons_of_ne_nil sep w W2 h2,
      intercalate_singleton_word]
  | w :: w2 :: ts, W2, _, h2 => by
    have ih := intercalate_append_split sep (w2 :: ts) W2 (by simp) h2
    rw [List.cons_append, intercalate_cons_of_ne_nil sep w ((w2 :: ts) ++ W2) (by simp),
      ih, intercalate_cons2]
    simp [List.append_assoc]

theorem splitWsAux_words_ne_nil : ∀ (s acc : List Char), ∀ w ∈ splitWsAux acc s, w ≠ []
  | [], acc, w, hw => by
    unfold splitWsAux at hw
    split at hw
    · simp at hw
    · rename_i hne
      simp only [List.mem_singleton] at hw
      subst hw
      intro h
      have hacc : acc = [] := by simpa using h
      simp [hacc] at hne
  | c :: cs, acc, w, hw => by
    unfold splitWsAux at hw
    split at hw
    · split at hw
      · exact splitWsAux_words_ne_nil cs [] w hw
      · rename_i hne
        rcases List.mem_cons.1 hw with rfl | hw2
        · intro h
          have hacc : acc = [] := by simpa using h
          simp [hacc] at hne
        · exact splitWsAux_words_ne_nil cs [] w hw2
    · exact splitWsAux_words_ne_nil cs (c :: acc) w hw

theorem splitWs_words_ne_nil (s : List Char) : ∀ w ∈ splitWs s, w ≠ [] :=
  splitWsAux_words_ne_nil s []

theorem foldl_wordSpanStep (lw rw : List (List Char)) :
    ∀ (ops : List OpCode) (ls rs : List (List Char × DiffTag)),
      ops.foldl (wordSpanStep lw rw) (ls, rs)
        = (ls ++ leftSpansOf lw ops, rs ++ rightSpansOf lw rw ops)
  | [], ls, rs => by simp [leftSpansOf, rightSpansOf]
  | op :: rest, ls, rs => by
    have ih := foldl_wordSpanStep lw rw rest
    rcases hop : op.tag with _ | _ | _ | _ <;>
      simp only [List.foldl_cons, wordSpanStep, hop, leftSpansOf, rightSpansOf] <;>
      rw [ih] <;>
      simp

theorem matchRun_concat {α : Type} [DecidableEq α] (a b : List α) (i j k1 k2 : Nat)
    (h1 : matchRun a b i j k1) (h2 : matchRun a b (i + k1) (j + k1) k2) :
    matchRun a b i j (k1 + k2) := by
  intro d hd
  by_cases hdk : d < k1
  · exact h1 d hdk
  · have e1 : i + d = i + k1 + (d - k1) := by omega
    have e2 : j + d = j + k1 + (d - k1) := by omega
    rw [e1, e2]
    exact h2 (d - k1) (by omega)

theorem jsMatches_getx {α : Type} [DecidableEq α] (aj : Bool) (b : List α)
    (blo bhi : Nat) (x : α) (j : Nat) (h : j ∈ jsMatches aj b blo bhi x) :
    b.get? j = some x := by
  unfold jsMatches at h
  split at h
  · simp at h
  · simp only [List.mem_filter] at h
    exact (of_decide_eq_true h.2).2.2

theorem run_extend {α : Type} [DecidableEq α] (a b : List α)
    (alo blo bhi i j : Nat) (x : α) (f : Nat → Nat)
    (hax : a.get? i = some x) (hbx : b.get? j = some x)
    (hinv : j2lenInv alo blo bhi i f)
    (hmatch : ∀ j2, f j2 ≠ 0 → matchRun a b (i - f j2) (j2 + 1 - f j2) (f j2)) :
    matchRun a b (i + 1 - (j2lenGet f j + 1)) (j + 1 - (j2lenGet f j + 1))
      (j2lenGet f j + 1) := by
  unfold j2lenGet
  split
  · rename_i hj0
    subst hj0
    intro d hd
    have hd0 : d = 0 := by omega
    subst hd0
    simp only [Nat.add_sub_cancel, Nat.add_zero]
    rw [hax, hbx]
  · rename_i hj0
    by_cases hv : f (j - 1) = 0
    · rw [hv]
      intro d hd
      have hd0 : d = 0 := by omega
      subst hd0
      simp only [Nat.add_sub_cancel, Nat.add_zero]
      rw [hax, hbx]
    · have hb1 := hinv (j - 1) hv
      have hrun := hmatch (j - 1) hv
      have hvi : f (j - 1) ≤ i := by omega
      have hvj : f (j - 1) ≤ j := by omega
      intro d hd
      have e1 : i + 1 - (f (j - 1) + 1) = i - f (j - 1) := by omega
      have e2 : j + 1 - (f (j - 1) + 1) = j - f (j - 1) := by omega
      rw [e1, e2]
      by_cases hdv : d < f (j - 1)
      · have e3 : j - f (j - 1) = (j - 1) + 1 - f (j - 1) := by omega
        rw [e3]
        exact hrun d hdv
      · have hde : d = f (j - 1) := by omega
        subst hde
        have e4 : i - f (j - 1) + f (j - 1) = i := by omega
        have e5 : j - f (j - 1) + f (j - 1) = j := by omega
        rw [e4, e5, hax, hbx]

theorem flmInner_match {α : Type} [DecidableEq α] (a b : List α)
    (alo blo bhi i : Nat) (x : α) (f : Nat → Nat)
    (hax : a.get? i = some x)
    (hinv : j2lenInv alo blo bhi i f)
    (hmatch : ∀ j2, f j2 ≠ 0 → matchRun a b (i - f j2) (j2 + 1 - f j2) (f j2)) :
    ∀ (js : List Nat) (best : Nat × Nat × Nat),
      (∀ j ∈ js, b.get? j = some x) →
      matchRun a b best.1 best.2.1 best.2.2 →
      matchRun a b (flmInner i f best js).1 (flmInner i f best js).2.1
        (flmInner i f best js).2.2
  | [], best, _, hb => hb
  | j :: js, best, hjs, hb => by
    have hstep : matchRun a b
        (if best.2.2 < j2lenGet f j + 1 then
          (i + 1 - (j2lenGet f j + 1), j + 1 - (j2lenGet f j + 1), j2lenGet f j + 1)
         else best).1
        (if best.2.2 < j2lenGet f j + 1 then
          (i + 1 - (j2lenGet f j + 1), j + 1 - (j2lenGet f j + 1), j2lenGet f j + 1)
         else best).2.1
        (if best.2.2 < j2lenGet f j + 1 then
          (i + 1 - (j2lenGet f j + 1), j + 1 - (j2lenGet f j + 1), j2lenGet f j + 1)
         else best).2.2 := by
      split
      · exact run_extend a b alo blo bhi i j x f hax (hjs j (List.mem_cons_self _ _))
          hinv hmatch
      · exact hb
    exact flmInner_match a b alo blo bhi i x f hax hinv hmatch js _
      (fun j2 hj2 => hjs j2 (List.mem_cons_of_mem _ hj2)) hstep

theorem flmStep_match {α : Type} [DecidableEq α] (aj : Bool) (a b : List α)
    (alo blo bhi i : Nat) (st : (Nat → Nat) × (Nat × Nat × Nat)) (x : α)
    (hax : a.get? i = some x)
    (hinv : j2lenInv alo blo bhi i st.1)
    (hmatch : ∀ j2, st.1 j2 ≠ 0 → matchRun a b (i - st.1 j2) (j2 + 1 - st.1 j2) (st.1 j2))
    (hbest : matchRun a b st.2.1 st.2.2.1 st.2.2.2) :
    (∀ j2, (flmStep aj b blo bhi st i x).1 j2 ≠ 0 →
      matchRun a b ((i + 1) - (flmStep aj b blo bhi st i x).1 j2)
        (j2 + 1 - (flmStep aj b blo bhi st i x).1 j2)
        ((flmStep aj b blo bhi st i x).1 j2))
      ∧ matchRun a b (flmStep aj b blo bhi st i x).2.1
          (flmStep aj b blo bhi st i x).2.2.1 (flmStep aj b blo bhi st i x).2.2.2 := by
  constructor
  · intro j hj
    simp only [flmStep] at hj ⊢
    by_cases hc : (jsMatches aj b blo bhi x).contains j
    · have hmem : j ∈ jsMatches aj b blo bhi x := List.mem_of_elem_eq_true hc
      have hbx := jsMatches_getx aj b blo bhi x j hmem
      rw [if_pos hc] at hj ⊢
      have := run_extend a b alo blo bhi i j x st.1 hax hbx hinv hmatch
      have e1 : i + 1 - (j2lenGet st.1 j + 1) = i + 1 - (j2lenGet st.1 j + 1) := rfl
      exact this
    · rw [if_neg hc] at hj
      exact absurd rfl hj
  · exact flmInner_match a b alo blo bhi i x st.1 hax hinv hmatch _ st.2
      (fun j hj => jsMatches_getx aj b blo bhi x j hj) hbest

theorem flmMain_run {α : Type} [DecidableEq α] (aj : Bool) (a b : List α)
    (alo ahi blo bhi : Nat) (h1 : alo ≤ ahi) (h2 : blo ≤ bhi) (ha : ahi ≤ a.length) :
    matchRun a b (flmMain aj a b alo ahi blo bhi).1
      (flmMain aj a b alo ahi blo bhi).2.1 (flmMain aj a b alo ahi blo bhi).2.2 := by
  have key := foldl_idxList_inv
    (fun st i =>
      match a.get? i with
      | some x => flmStep aj b blo bhi st i x
      | none => st)
    (fun i st => alo ≤ i ∧ j2lenInv alo blo bhi i st.1
      ∧ flmBounds alo ahi blo bhi st.2
      ∧ (∀ j2, st.1 j2 ≠ 0 → matchRun a b (i - st.1 j2) (j2 + 1 - st.1 j2) (st.1 j2))
      ∧ matchRun a b st.2.1 st.2.2.1 st.2.2.2)
    ahi
    (by
      intro s i hi hP
      obtain ⟨hia, hinv, hbd, hm, hbest⟩ := hP
      simp only
      cases hx : a.get? i with
      | none =>
        exfalso
        have hnone := List.get?_eq_none.1 hx
        omega
      | some x =>
        obtain ⟨hi1, hi2⟩ := flmStep_inv aj b alo ahi blo bhi i s x hinv hia hi hbd
        obtain ⟨hm1, hm2⟩ := flmStep_match aj a b alo blo bhi i s x hx hinv hm hbest
        exact ⟨by omega, hi1, hi2, hm1, hm2⟩)
    (ahi - alo) alo ((fun _ => 0, (alo, blo, 0)) : (Nat → Nat) × (Nat × Nat × Nat))
    (by omega)
    (by
      refine ⟨le_rfl, ?_, ?_, ?_, ?_⟩
      · intro j hj
        exact absurd rfl hj
      · exact ⟨le_rfl, by simpa using h1, le_rfl, by simpa using h2⟩
      · intro j hj
        exact absurd rfl hj
      · intro d hd
        exact absurd hd (Nat.not_lt_zero d))
  exact key.2.2.2.2

theorem flmExtendLower_run {α : Type} [DecidableEq α] (a b : List α) (alo blo : Nat) :
    ∀ (fuel : Nat) (best : Nat × Nat × Nat),
      matchRun a b best.1 best.2.1 best.2.2 →
      matchRun a b (flmExtendLower a b alo blo fuel best).1
        (flmExtendLower a b alo blo fuel best).2.1
        (flmExtendLower a b alo blo fuel best).2.2
  | 0, best, h => h
  | fuel + 1, (i, j, k), h => by
    unfold flmExtendLower
    split
    · rename_i hcond
      obtain ⟨hai, hbj, _, heq⟩ := hcond
      apply flmExtendLower_run a b alo blo fuel
      intro d hd
      have hd' : d < k + 1 := hd
      cases d with
      | zero => simpa using heq
      | succ d' =>
        have e1 : i - 1 + (d' + 1) = i + d' := by omega
        have e2 : j - 1 + (d' + 1) = j + d' := by omega
        rw [e1, e2]
        exact h d' (show d' < k by omega)
    · exact h

theorem flmExtendUpper_run {α : Type} [DecidableEq α] (a b : List α) (ahi bhi : Nat) :
    ∀ (fuel : Nat) (best : Nat × Nat × Nat),
      matchRun a b best.1 best.2.1 best.2.2 →
      matchRun a b (flmExtendUpper a b ahi bhi fuel best).1
        (flmExtendUpper a b ahi bhi fuel best).2.1
        (flmExtendUpper a b ahi bhi fuel best).2.2
  | 0, best, h => h
  | fuel + 1, (i, j, k), h => by
    unfold flmExtendUpper
    split
    · rename_i hcond
      obtain ⟨_, _, _, heq⟩ := hcond
      apply flmExtendUpper_run a b ahi bhi fuel
      intro d hd
      have hd' : d < k + 1 := hd
      by_cases hdk : d < k
      · exact h d hdk
      · have e : d = k := by omega
        subst e
        exact heq
    · exact h

theorem find_longest_match_run {α : Type} [DecidableEq α] (aj : Bool) (a b : List α)
    (alo ahi blo bhi : Nat) (h1 : alo ≤ ahi) (h2 : blo ≤ bhi) (ha : ahi ≤ a.length) :
    matchRun a b (find_longest_match aj a b alo ahi blo bhi).1
      (find_longest_match aj a b alo ahi blo bhi).2.1
      (find_longest_match aj a b alo ahi blo bhi).2.2 := by
  unfold find_longest_match
  apply flmExtendUpper_run
  apply flmExtendLower_run
  exact flmMain_run aj a b alo ahi blo bhi h1 h2 ha

theorem matchingBlocksFuel_match {α : Type} [DecidableEq α] (aj : Bool) (a b : List α) :
    ∀ (fuel alo ahi blo bhi : Nat), alo ≤ ahi → blo ≤ bhi → ahi ≤ a.length →
      ∀ blk ∈ matchingBlocksFuel aj a b fuel alo ahi blo bhi,
        matchRun a b blk.1 blk.2.1 blk.2.2
  | 0, alo, ahi, blo, bhi, _, _, _, blk, hblk => absurd hblk (List.not_mem_nil blk)
  | fuel + 1, alo, ahi, blo, bhi, h1, h2, ha, blk, hblk => by
    have hb := find_longest_match_bounds aj a b alo ahi blo bhi h1 h2
    have hr := find_longest_match_run aj a b alo ahi blo bhi h1 h2 ha
    rcases hflm : find_longest_match aj a b alo ahi blo bhi with ⟨mi, mj, mk⟩
    rw [hflm] at hb hr
    obtain ⟨hb1, hb2, hb3, hb4⟩ := hb
    simp only at hb2 hb3 hb4
    simp only [matchingBlocksFuel, hflm] at hblk
    rcases hsz : decide ((mi, mj, mk).2.2 = 0) with _ | _
    · rw [if_neg (by simpa using hsz)] at hblk
      rcases List.mem_append.1 hblk with hL | hR
      rcases List.mem_append.1 hL with hL2 | hM
      · rcases hcl : decide (alo < mi ∧ blo < mj) with _ | _
        · rw [if_neg (by simpa using hcl)] at hL2
          exact absurd hL2 (List.not_mem_nil blk)
        · rw [if_pos (by simpa using hcl)] at hL2
          exact matchingBlocksFuel_match aj a b fuel alo mi blo mj hb1 hb3
            (by omega) blk hL2
      · have : blk = (mi, mj, mk) := List.mem_singleton.1 hM
        subst this
        exact hr
      · rcases hcr : decide (mi + mk < ahi ∧ mj + mk < bhi) with _ | _
        · rw [if_neg (by simpa using hcr)] at hR
          exact absurd hR (List.not_mem_nil blk)
        · rw [if_pos (by simpa using hcr)] at hR
          exact matchingBlocksFuel_match aj a b fuel (mi + mk) ahi (mj + mk) bhi
            (by omega) (by omega) ha blk hR
    · rw [if_pos (by simpa using hsz)] at hblk
      exact absurd hblk (List.not_mem_nil blk)

theorem collapseBlocks_match {α : Type} [DecidableEq α] (a b : List α) :
    ∀ (L : List (Nat × Nat × Nat)) (i1 j1 k1 : Nat),
      matchRun a b i1 j1 k1 →
      (∀ blk ∈ L, matchRun a b blk.1 blk.2.1 blk.2.2) →
      ∀ blk ∈ collapseBlocks i1 j1 k1 L, matchRun a b blk.1 blk.2.1 blk.2.2
  | [], i1, j1, k1, hcur, _, blk, hblk => by
    unfold collapseBlocks at hblk
    split at hblk
    · have : blk = (i1, j1, k1) := List.mem_singleton.1 hblk
      subst this
      exact hcur
    · exact absurd hblk (List.not_mem_nil blk)
  | (i2, j2, k2) :: rest, i1, j1, k1, hcur, hall, blk, hblk => by
    have hhead : matchRun a b i2 j2 k2 := hall (i2, j2, k2) (List.mem_cons_self _ _)
    have hrest : ∀ b2 ∈ rest, matchRun a b b2.1 b2.2.1 b2.2.2 :=
      fun b2 hb2 => hall b2 (List.mem_cons_of_mem _ hb2)
    unfold collapseBlocks at hblk
    split at hblk
    · rename_i hmerge
      refine collapseBlocks_match a b rest i1 j1 (k1 + k2) ?_ hrest blk hblk
      apply matchRun_concat a b i1 j1 k1 k2 hcur
      rw [hmerge.1, hmerge.2]
      exact hhead
    · rcases List.mem_append.1 hblk with hL | hR
      · split at hL
        · have : blk = (i1, j1, k1) := List.mem_singleton.1 hL
          subst this
          exact hcur
        · exact absurd hL (List.not_mem_nil blk)
      · exact collapseBlocks_match a b rest i2 j2 k2 hhead hrest blk hR

theorem get_matching_blocks_match {α : Type} [DecidableEq α] (aj : Bool) (a b : List α) :
    ∀ blk ∈ get_matching_blocks aj a b, matchRun a b blk.1 blk.2.1 blk.2.2 := by
  intro blk hblk
  unfold get_matching_blocks at hblk
  rcases List.mem_append.1 hblk with hL | hR
  · exact collapseBlocks_match a b _ 0 0 0 (fun d hd => absurd hd (Nat.not_lt_zero d))
      (matchingBlocksFuel_match aj a b (a.length + b.length + 1) 0 a.length 0 b.length
        (Nat.zero_le _) (Nat.zero_le _) le_rfl) blk hL
  · have : blk = (a.length, b.length, 0) := List.mem_singleton.1 hR
    subst this
    exact fun d hd => absurd hd (Nat.not_lt_zero d)

theorem opcodesFromBlocks_equal_run {α : Type} [DecidableEq α] (a b : List α) :
    ∀ (L : List (Nat × Nat × Nat)) (i j : Nat),
      (∀ blk ∈ L, matchRun a b blk.1 blk.2.1 blk.2.2) →
      ∀ op ∈ opcodesFromBlocks i j L, op.tag = DiffTag.equal →
        matchRun a b op.i1 op.j1 (op.i2 - op.i1)
  | [], i, j, _, op, hop, _ => absurd hop (List.not_mem_nil op)
  | (ai, bj, k) :: rest, i, j, hall, op, hop, htag => by
    have hhead : matchRun a b ai bj k := hall (ai, bj, k) (List.mem_cons_self _ _)
    have hrest : ∀ blk ∈ rest, matchRun a b blk.1 blk.2.1 blk.2.2 :=
      fun blk hb => hall blk (List.mem_cons_of_mem _ hb)
    have hform : opcodesFromBlocks i j ((ai, bj, k) :: rest)
        = ((if i < ai ∧ j < bj then [⟨DiffTag.replace, i, ai, j, bj⟩]
            else if i < ai then [⟨DiffTag.delete, i, ai, j, bj⟩]
            else if j < bj then [⟨DiffTag.insert, i, ai, j, bj⟩]
            else [])
          ++ (if k ≠ 0 then [⟨DiffTag.equal, ai, ai + k, bj, bj + k⟩] else []))
          ++ opcodesFromBlocks (ai + k) (bj + k) rest := rfl
    rw [hform] at hop
    rcases List.mem_append.1 hop with hL | hR
    · rcases List.mem_append.1 hL with hpre | heq
      · split at hpre
        · have := List.mem_singleton.1 hpre
          subst this
          simp at htag
        · split at hpre
          · have := List.mem_singleton.1 hpre
            subst this
            simp at htag
          · split at hpre
            · have := List.mem_singleton.1 hpre
              subst this
              simp at htag
            · exact absurd hpre (List.not_mem_nil op)
      · split at heq
        · have := List.mem_singleton.1 heq
          subst this
          simp only
          have e : ai + k - ai = k := by omega
          rw [e]
          exact hhead
        · exact absurd heq (List.not_mem_nil op)
    · exact opcodesFromBlocks_equal_run a b rest (ai + k) (bj + k) hrest op hR htag

theorem get_opcodes_equal_run {α : Type} [DecidableEq α] (aj : Bool) (a b : List α) :
    ∀ op ∈ get_opcodes aj a b, op.tag = DiffTag.equal →
      matchRun a b op.i1 op.j1 (op.i2 - op.i1) := by
  intro op hop htag
  exact opcodesFromBlocks_equal_run a b _ 0 0 (get_matching_blocks_match aj a b) op hop htag

theorem matchRun_slice_eq (a b : List (List Char)) (i1 i2 j1 j2 : Nat)
    (hk : i2 - i1 = j2 - j1) (hrun : matchRun a b i1 j1 (i2 - i1)) :
    pySlice a i1 i2 = pySlice b j1 j2 := by
  apply List.ext
  intro n
  unfold pySlice
  by_cases hn : n < i2 - i1
  · rw [List.get?_take hn, List.get?_take (by omega), List.get?_drop, List.get?_drop]
    exact hrun n hn
  · have h1 : (List.take (i2 - i1) (List.drop i1 a)).get? n = none := by
      apply List.get?_eq_none.2
      rw [List.length_take, List.length_drop]
      omega
    have h2 : (List.take (j2 - j1) (List.drop j1 b)).get? n = none := by
      apply List.get?_eq_none.2
      rw [List.length_take, List.length_drop]
      omega
    rw [h1, h2]

theorem leftSpansOf_done (lw : List (List Char)) :
    ∀ (ops : List OpCode) (j je e : Nat),
      opsTile e j ops e je → (∀ op ∈ ops, opShape op) →
      leftSpansOf lw ops = []
  | [], _, _, _, _, _ => rfl
  | op :: rest, j, je, e, h, hsh => by
    obtain ⟨hi, hj, hl1, hl2, hrest⟩ := h
    have hle := opsTile_le rest op.i2 op.j2 e je hrest
    have hi12 : op.i1 = op.i2 := by omega
    have hshape := hsh op (List.mem_cons_self _ _)
    rcases htag : op.tag with _ | _ | _ | _
    · simp only [opShape, htag] at hshape
      omega
    · have hrec := leftSpansOf_done lw rest op.j2 je e
        (by rwa [show op.i2 = e by omega] at hrest)
        (fun o ho => hsh o (List.mem_cons_of_mem _ ho))
      simp only [leftSpansOf, htag]
      exact hrec
    · simp only [opShape, htag] at hshape
      omega
    · simp only [opShape, htag] at hshape
      omega

theorem rightSpansOf_done (lw rw : List (List Char)) :
    ∀ (ops : List OpCode) (i ie f : Nat),
      opsTile i f ops ie f → (∀ op ∈ ops, opShape op) →
      rightSpansOf lw rw ops = []
  | [], _, _, _, _, _ => rfl
  | op :: rest, i, ie, f, h, hsh => by
    obtain ⟨hi, hj, hl1, hl2, hrest⟩ := h
    have hle := opsTile_le rest op.i2 op.j2 ie f hrest
    have hj12 : op.j1 = op.j2 := by omega
    have hshape := hsh op (List.mem_cons_self _ _)
    have hrec := rightSpansOf_done lw rw rest op.i2 ie f
      (by rwa [show op.j2 = f by omega] at hrest)
      (fun o ho => hsh o (List.mem_cons_of_mem _ ho))
    rcases htag : op.tag with _ | _ | _ | _
    · simp only [opShape, htag] at hshape
      omega
    · simp only [opShape, htag] at hshape
      omega
    · simp only [leftSpansOf, rightSpansOf, htag]
      exact hrec
    · simp only [opShape, htag] at hshape
      omega

theorem slice_ne_nil (lw : List (List Char)) (i1 i2 : Nat) (h1 : i1 < i2)
    (h2 : i1 < lw.length) : pySlice lw i1 i2 ≠ [] := by
  unfold pySlice
  apply List.ne_nil_of_length_pos
  rw [List.length_take, List.length_drop]
  omega

theorem slice_words_ne_nil (lw : List (List Char)) (hw : ∀ w ∈ lw, w ≠ [])
    (i1 i2 : Nat) : ∀ w ∈ pySlice lw i1 i2, w ≠ [] := by
  intro w hmem
  unfold pySlice at hmem
  exact hw w (List.mem_of_mem_drop (List.mem_of_mem_take hmem))

theorem drop_words_ne_nil (lw : List (List Char)) (hw : ∀ w ∈ lw, w ≠ [])
    (i : Nat) : ∀ w ∈ lw.drop i, w ≠ [] :=
  fun w hmem => hw w (List.mem_of_mem_drop hmem)

theorem join_step (lw : List (List Char)) (hw : ∀ w ∈ lw, w ≠ []) (i1 i2 : Nat)
    (h1 : i1 < i2) (h2 : i2 ≤ lw.length) (ts : List (List Char))
    (hts : joinSpaces ts = joinSpaces (lw.drop i2))
    (hts_nil : i2 = lw.length → ts = []) :
    joinSpaces (joinSpaces (pySlice lw i1 i2) :: ts) = joinSpaces (lw.drop i1) := by
  have hsplit : lw.drop i1 = pySlice lw i1 i2 ++ lw.drop i2 := by
    unfold pySlice
    exact drop_eq_take_append lw i1 i2 (by omega)
  by_cases hend : i2 = lw.length
  · have hdrop : lw.drop i2 = [] := by
      rw [hend]
      exact List.drop_length lw
    rw [hts_nil hend, hsplit, hdrop, List.append_nil]
    exact intercalate_singleton_word [' '] _
  · have hdne : lw.drop i2 ≠ [] := by
      apply List.ne_nil_of_length_pos
      rw [List.length_drop]
      omega
    have hjne : joinSpaces (lw.drop i2) ≠ [] :=
      intercalate_ne_nil [' '] _ hdne (drop_words_ne_nil lw hw i2)
    have htsne : ts ≠ [] := by
      intro hnil
      rw [hnil] at hts
      exact hjne hts.symm
    unfold joinSpaces
    rw [intercalate_cons_of_ne_nil [' '] _ ts htsne, hsplit,
      intercalate_append_split [' '] _ _ (slice_ne_nil lw i1 i2 h1 (by omega)) hdne]
    unfold joinSpaces at hts
    rw [hts]

theorem leftSpansOf_nil_done (lw : List (List Char)) :
    ∀ (ops : List OpCode) (i j je : Nat),
      opsTile i j ops lw.length je → (∀ op ∈ ops, opShape op) →
      leftSpansOf lw ops = [] → i = lw.length
  | [], i, j, je, h, _, _ => h.1
  | op :: rest, i, j, je, h, hsh, hnil => by
    obtain ⟨hi, hj, hl1, hl2, hrest⟩ := h
    have hshape := hsh op (List.mem_cons_self _ _)
    rcases htag : op.tag with _ | _ | _ | _
    · simp only [leftSpansOf, htag] at hnil
      exact absurd hnil (List.cons_ne_nil _ _)
    · simp only [leftSpansOf, htag] at hnil
      have := leftSpansOf_nil_done lw rest op.i2 op.j2 je hrest
        (fun o ho => hsh o (List.mem_cons_of_mem _ ho)) hnil
      simp only [opShape, htag] at hshape
      omega
    · simp only [leftSpansOf, htag] at hnil
      exact absurd hnil (List.cons_ne_nil _ _)
    · simp only [leftSpansOf, htag] at hnil
      exact absurd hnil (List.cons_ne_nil _ _)

theorem leftSpans_join (lw : List (List Char)) (hw : ∀ w ∈ lw, w ≠ []) :
    ∀ (ops : List OpCode) (i j je : Nat),
      opsTile i j ops lw.length je → (∀ op ∈ ops, opShape op) →
      joinSpaces ((leftSpansOf lw ops).map Prod.fst) = joinSpaces (lw.drop i)
  | [], i, j, je, h, _ => by
    rw [h.1, List.drop_length]
    rfl
  | op :: rest, i, j, je, h, hsh => by
    obtain ⟨hi, hj, hl1, hl2, hrest⟩ := h
    have hshape := hsh op (List.mem_cons_self _ _)
    have hshr : ∀ o ∈ rest, opShape o := fun o ho => hsh o (List.mem_cons_of_mem _ ho)
    have ih := leftSpans_join lw hw rest op.i2 op.j2 je hrest hshr
    have hle := opsTile_le rest op.i2 op.j2 lw.length je hrest
    have hnil : op.i2 = lw.length → (leftSpansOf lw rest).map Prod.fst = [] := by
      intro hend
      rw [leftSpansOf_done lw rest op.j2 je lw.length
        (by rwa [hend] at hrest) hshr]
      rfl
    rcases htag : op.tag with _ | _ | _ | _
    · simp only [opShape, htag] at hshape
      simp only [leftSpansOf, htag, List.map_cons]
      rw [← hi]
      exact join_step lw hw op.i1 op.i2 hshape.1 (by omega) _ ih
        (fun hend => hnil hend)
    · simp only [opShape, htag] at hshape
      simp only [leftSpansOf, htag]
      rw [← hi, hshape.1, ← ih]
    · simp only [opShape, htag] at hshape
      simp only [leftSpansOf, htag, List.map_cons]
      rw [← hi]
      exact join_step lw hw op.i1 op.i2 hshape.1 (by omega) _ ih
        (fun hend => hnil hend)
    · simp only [opShape, htag] at hshape
      simp only [leftSpansOf, htag, List.map_cons]
      rw [← hi]
      exact join_step lw hw op.i1 op.i2 hshape.1 (by omega) _ ih
        (fun hend => hnil hend)

theorem rightSpans_join (lw rw : List (List Char)) (hw : ∀ w ∈ rw, w ≠ []) :
    ∀ (ops : List OpCode) (i j ie : Nat),
      opsTile i j ops ie rw.length → (∀ op ∈ ops, opShape op) →
      (∀ op ∈ ops, op.tag = DiffTag.equal →
        pySlice lw op.i1 op.i2 = pySlice rw op.j1 op.j2) →
      joinSpaces ((rightSpansOf lw rw ops).map Prod.fst) = joinSpaces (rw.drop j)
  | [], i, j, ie, h, _, _ => by
    rw [h.2, List.drop_length]
    rfl
  | op :: rest, i, j, ie, h, hsh, heq => by
    obtain ⟨hi, hj, hl1, hl2, hrest⟩ := h
    have hshape := hsh op (List.mem_cons_self _ _)
    have hshr : ∀ o ∈ rest, opShape o := fun o ho => hsh o (List.mem_cons_of_mem _ ho)
    have heqr : ∀ o ∈ rest, o.tag = DiffTag.equal →
        pySlice lw o.i1 o.i2 = pySlice rw o.j1 o.j2 :=
      fun o ho => heq o (List.mem_cons_of_mem _ ho)
    have ih := rightSpans_join lw rw hw rest op.i2 op.j2 ie hrest hshr heqr
    have hle := opsTile_le rest op.i2 op.j2 ie rw.length hrest
    have hnil : op.j2 = rw.length → (rightSpansOf lw rw rest).map Prod.fst = [] := by
      intro hend
      rw [rightSpansOf_done lw rw rest op.i2 ie rw.length
        (by rwa [hend] at hrest) hshr]
      rfl
    rcases htag : op.tag with _ | _ | _ | _
    · simp only [opShape, htag] at hshape
      simp only [rightSpansOf, htag, List.map_cons]
      rw [heq op (List.mem_cons_self _ _) htag, ← hj]
      exact join_step rw hw op.j1 op.j2 (by omega) (by omega) _ ih
        (fun hend => hnil hend)
    · simp only [opShape, htag] at hshape
      simp only [rightSpansOf, htag, List.map_cons]
      rw [← hj]
      exact join_step rw hw op.j1 op.j2 hshape.2 (by omega) _ ih
        (fun hend => hnil hend)
    · simp only [opShape, htag] at hshape
      simp only [rightSpansOf, htag]
      rw [← hj, hshape.2, ← ih]
    · simp only [opShape, htag] at hshape
      simp only [rightSpansOf, htag, List.map_cons]
      rw [← hj]
      exact join_step rw hw op.j1 op.j2 hshape.2 (by omega) _ ih
        (fun hend => hnil hend)

theorem compute_word_diffs_get (left_lines right_lines : List (List Char)) (i : Nat)
    (hlt : i < max left_lines.length right_lines.length) :
    (compute_word_diffs left_lines right_lines).get? i
      = some ⟨leftSpansOf (splitWs (left_lines.getD i []))
            (get_opcodes true (splitWs (left_lines.getD i []))
              (splitWs (right_lines.getD i []))),
          rightSpansOf (splitWs (left_lines.getD i [])) (splitWs (right_lines.getD i []))
            (get_opcodes true (splitWs (left_lines.getD i []))
              (splitWs (right_lines.getD i [])))⟩ := by
  unfold compute_word_diffs
  rw [List.get?_map, List.get?_range hlt]
  have hfold := foldl_wordSpanStep (splitWs (left_lines.getD i []))
    (splitWs (right_lines.getD i []))
    (get_opcodes true (splitWs (left_lines.getD i [])) (splitWs (right_lines.getD i [])))
    [] []
  simp only [Option.map_some', Option.some.injEq, hfold, List.nil_append]

set_option maxHeartbeats 1000000 in
/-- C2: for every pair of input line sequences of `compute_word_diffs`
(in the source these are a replace block's left and right lines) and
every word-diff entry, joining the entry's left span texts with single
spaces reproduces the whitespace-split, space-rejoined original left
line of that pair, and joining the right span texts reproduces the
split-rejoined original right line; this holds for all positional
pairs, including those where the shorter side was padded with the
empty line (`getD _ []`). -/
theorem c2_word_diff_reconstruction (left_lines right_lines : List (List Char)) (i : Nat)
    (e : WordDiffEntry)
    (he : (compute_word_diffs left_lines right_lines).get? i = some e) :
    joinSpaces (e.left_spans.map Prod.fst) = joinSpaces (splitWs (left_lines.getD i []))
      ∧ joinSpaces (e.right_spans.map Prod.fst)
        = joinSpaces (splitWs (right_lines.getD i [])) := by
  have hlt : i < max left_lines.length right_lines.length := by
    by_contra hge
    push_neg at hge
    have hnone : (compute_word_diffs left_lines right_lines).get? i = none := by
      apply List.get?_eq_none.2
      unfold compute_word_diffs
      rw [List.length_map, List.length_range]
      exact hge
    rw [hnone] at he
    exact Option.noConfusion he
  rw [compute_word_diffs_get left_lines right_lines i hlt] at he
  have he2 := Option.some.inj he
  subst he2
  obtain ⟨hmaster1, hmaster2⟩ := get_opcodes_master true (splitWs (left_lines.getD i []))
    (splitWs (right_lines.getD i []))
  have heq : ∀ op ∈ get_opcodes true (splitWs (left_lines.getD i []))
      (splitWs (right_lines.getD i [])), op.tag = DiffTag.equal →
      pySlice (splitWs (left_lines.getD i [])) op.i1 op.i2
        = pySlice (splitWs (right_lines.getD i [])) op.j1 op.j2 := by
    intro op hop htag
    have hrun := get_opcodes_equal_run true (splitWs (left_lines.getD i []))
      (splitWs (right_lines.getD i [])) op hop htag
    have hshape := hmaster2 op hop
    simp only [opShape, htag] at hshape
    exact matchRun_slice_eq _ _ op.i1 op.i2 op.j1 op.j2 hshape.2 hrun
  simp only []
  constructor
  · have hjoin := leftSpans_join (splitWs (left_lines.getD i []))
      (splitWs_words_ne_nil _) _ 0 0 (splitWs (right_lines.getD i [])).length
      hmaster1 hmaster2
    rw [List.drop_zero] at hjoin
    exact hjoin
  · have hjoin := rightSpans_join (splitWs (left_lines.getD i []))
      (splitWs (right_lines.getD i [])) (splitWs_words_ne_nil _) _ 0 0
      (splitWs (left_lines.getD i [])).length hmaster1 hmaster2 heq
    rw [List.drop_zero] at hjoin
    exact hjoin

theorem c2_word_diff_reconstruction_witness :
    (compute_word_diffs [['a', ' ', 'b']] [['a', ' ', 'c']]).get? 0
        = some ⟨[(['a'], DiffTag.equal), (['b'], DiffTag.delete)],
                [(['a'], DiffTag.equal), (['c'], DiffTag.insert)]⟩
      ∧ (joinSpaces ((WordDiffEntry.mk [(['a'], DiffTag.equal), (['b'], DiffTag.delete)]
            [(['a'], DiffTag.equal), (['c'], DiffTag.insert)]).left_spans.map Prod.fst)
          = joinSpaces (splitWs ([['a', ' ', 'b']].getD 0 []))
        ∧ joinSpaces ((WordDiffEntry.mk [(['a'], DiffTag.equal), (['b'], DiffTag.delete)]
            [(['a'], DiffTag.equal), (['c'], DiffTag.insert)]).right_spans.map Prod.fst)
          = joinSpaces (splitWs ([['a', ' ', 'c']].getD 0 []))) :=
  ⟨by decide, c2_word_diff_reconstruction [['a', ' ', 'b']] [['a', ' ', 'c']] 0
    ⟨[(['a'], DiffTag.equal), (['b'], DiffTag.delete)],
     [(['a'], DiffTag.equal), (['c'], DiffTag.insert)]⟩ (by decide)⟩

theorem build_user_prompt_length (d : List Char) (stats : Stats) (na nb : List Char) :
    (_build_user_prompt d stats na nb).length
      = d.length + (_build_user_prompt [] stats na nb).length := by
  unfold _build_user_prompt
  simp only [List.length_append, List.length_nil]
  omega

/-- C9 counterexample: the source truncates whenever the WHOLE user prompt
(diff plus the fixed prompt text around it) exceeds 80000 characters, so a
unified diff of exactly 80000 characters — at the claimed cap — is already
truncated and the payload is not the unmodified prompt. -/
theorem c9_diff_cap_cex :
    (List.replicate 80000 'a').length ≤ 80000
      ∧ generate_llm_report_user_prompt (List.replicate 80000 'a') ⟨0, 0, 0, 0⟩ [] []
          ≠ _build_user_prompt (List.replicate 80000 'a') ⟨0, 0, 0, 0⟩ [] [] := by
  constructor
  · rw [List.length_replicate]
  · have hW : (_build_user_prompt [] ⟨0, 0, 0, 0⟩ [] []).length = 179 := rfl
    have hM : truncMarker.length = 38 := rfl
    have hlen : (_build_user_prompt (List.replicate 80000 'a') ⟨0, 0, 0, 0⟩ [] []).length
        = 80000 + 179 := by
      rw [build_user_prompt_length, List.length_replicate, hW]
    have hform : generate_llm_report_user_prompt (List.replicate 80000 'a') ⟨0, 0, 0, 0⟩ [] []
        = (_build_user_prompt (List.replicate 80000 'a') ⟨0, 0, 0, 0⟩ [] []).take 80000
            ++ truncMarker := by
      unfold generate_llm_report_user_prompt
      simp only []
      rw [if_pos (by rw [hlen]; omega)]
    intro heq
    have hlens := congrArg List.length heq
    rw [hform, List.length_append, List.length_take, hlen, hM] at hlens
    omega

/-- C9 amended: the fixed 80000-character cap is applied to the whole user
prompt (the unified diff plus the surrounding prompt text), not to the diff
alone: when the built prompt is at most 80000 characters the payload is the
prompt unmodified; when it exceeds 80000 the payload is the prompt's first
80000 characters with the truncation marker appended, with total length
exactly 80000 plus the marker length. -/
theorem c9_cap_amended (unified_diff : List Char) (stats : Stats) (na nb : List Char) :
    ((_build_user_prompt unified_diff stats na nb).length ≤ 80000 →
      generate_llm_report_user_prompt unified_diff stats na nb
        = _build_user_prompt unified_diff stats na nb)
    ∧ (80000 < (_build_user_prompt unified_diff stats na nb).length →
      generate_llm_report_user_prompt unified_diff stats na nb
        = (_build_user_prompt unified_diff stats na nb).take 80000 ++ truncMarker
      ∧ (generate_llm_report_user_prompt unified_diff stats na nb).length
          = 80000 + truncMarker.length) := by
  constructor
  · intro h
    unfold generate_llm_report_user_prompt
    simp only []
    rw [if_neg (by omega)]
  · intro h
    have hform : generate_llm_report_user_prompt unified_diff stats na nb
        = (_build_user_prompt unified_diff stats na nb).take 80000 ++ truncMarker := by
      unfold generate_llm_report_user_prompt
      simp only []
      rw [if_pos h]
    refine ⟨hform, ?_⟩
    rw [hform, List.length_append, List.length_take]
    omega

set_option maxRecDepth 4000 in
theorem c9_cap_amended_witness :
    (_build_user_prompt ['a'] ⟨0, 0, 0, 0⟩ [] []).length ≤ 80000
      ∧ generate_llm_report_user_prompt ['a'] ⟨0, 0, 0, 0⟩ [] []
          = _build_user_prompt ['a'] ⟨0, 0, 0, 0⟩ [] [] :=
  ⟨by decide, (c9_cap_amended ['a'] ⟨0, 0, 0, 0⟩ [] []).1 (by decide)⟩

theorem severityLine_mem_report (diff_blocks : List DiffBlock) (stats : Stats)
    (name_a name_b now : List Char)
    (hch : stats.insert + stats.delete + stats.replace ≠ 0) :
    severityLine stats ∈ generate_report_lines diff_blocks stats name_a name_b now := by
  unfold generate_report_lines
  simp only []
  rw [if_neg hch]
  simp [List.mem_append]

/-- C5: `generate_report` computes the change percentage as
changed / (equal + delete + replace) × 100, zero when the denominator is
zero, and (when the changed count is nonzero) the report contains the
severity line with exactly the fixed sentence selected by the strict
thresholds: over 30 High, over 10 and at most 30 Medium, at most 10 Low. -/
theorem c5_severity_classification (diff_blocks : List DiffBlock) (stats : Stats)
    (name_a name_b now : List Char)
    (hch : stats.insert + stats.delete + stats.replace ≠ 0) :
    (stats.equal + stats.delete + stats.replace = 0 → change_pct stats = 0)
    ∧ (stats.equal + stats.delete + stats.replace ≠ 0 →
        change_pct stats
          = ((stats.insert : ℚ) + (stats.delete : ℚ) + (stats.replace : ℚ))
            / ((stats.equal : ℚ) + (stats.delete : ℚ) + (stats.replace : ℚ)) * 100)
    ∧ ((30 : ℚ) < change_pct stats →
        "**Overall severity:** ".data ++ severityHighText
          ∈ generate_report_lines diff_blocks stats name_a name_b now)
    ∧ ((10 : ℚ) < change_pct stats → change_pct stats ≤ 30 →
        "**Overall severity:** ".data ++ severityMediumText
          ∈ generate_report_lines diff_blocks stats name_a name_b now)
    ∧ (change_pct stats ≤ 10 →
        "**Overall severity:** ".data ++ severityLowText
          ∈ generate_report_lines diff_blocks stats name_a name_b now) := by
  refine ⟨?_, ?_, ?_, ?_, ?_⟩
  · intro h0
    unfold change_pct
    simp only []
    rw [if_pos h0]
  · intro h0
    unfold change_pct
    simp only []
    rw [if_neg h0]
    push_cast
    ring
  · intro hhigh
    have hline : severityLine stats = "**Overall severity:** ".data ++ severityHighText := by
      unfold severityLine severityText
      rw [if_pos hhigh]
    rw [← hline]
    exact severityLine_mem_report diff_blocks stats name_a name_b now hch
  · intro hmed1 hmed2
    have hline : severityLine stats = "**Overall severity:** ".data ++ severityMediumText := by
      unfold severityLine severityText
      rw [if_neg (by exact not_lt.2 hmed2), if_pos hmed1]
    rw [← hline]
    exact severityLine_mem_report diff_blocks stats name_a name_b now hch
  · intro hlow
    have hline : severityLine stats = "**Overall severity:** ".data ++ severityLowText := by
      unfold severityLine severityText
      rw [if_neg (by exact not_lt.2 (le_trans hlow (by norm_num))),
        if_neg (by exact not_lt.2 hlow)]
    rw [← hline]
    exact severityLine_mem_report diff_blocks stats name_a name_b now hch

theorem c5_severity_classification_witness :
    ((0 : Nat) + 0 + 1 ≠ 0)
      ∧ (((1 : Nat) + 0 + 1 = 0 → change_pct ⟨1, 0, 0, 1⟩ = 0)
        ∧ ((1 : Nat) + 0 + 1 ≠ 0 →
            change_pct ⟨1, 0, 0, 1⟩
              = (((0 : Nat) : ℚ) + ((0 : Nat) : ℚ) + ((1 : Nat) : ℚ))
                / (((1 : Nat) : ℚ) + ((0 : Nat) : ℚ) + ((1 : Nat) : ℚ)) * 100)
        ∧ ((30 : ℚ) < change_pct ⟨1, 0, 0, 1⟩ →
            "**Overall severity:** ".data ++ severityHighText
              ∈ generate_report_lines [] ⟨1, 0, 0, 1⟩ [] [] [])
        ∧ ((10 : ℚ) < change_pct ⟨1, 0, 0, 1⟩ → change_pct ⟨1, 0, 0, 1⟩ ≤ 30 →
            "**Overall severity:** ".data ++ severityMediumText
              ∈ generate_report_lines [] ⟨1, 0, 0, 1⟩ [] [] [])
        ∧ (change_pct ⟨1, 0, 0, 1⟩ ≤ 10 →
            "**Overall severity:** ".data ++ severityLowText
              ∈ generate_report_lines [] ⟨1, 0, 0, 1⟩ [] [] [])) :=
  ⟨by decide, c5_severity_classification [] ⟨1, 0, 0, 1⟩ [] [] [] (by decide)⟩
